import Mathlib

/-!
KD-tree (`KD-tree/main.cpp`): insertion and nearest-neighbour search

A shallow embedding of the class `KDTree` of `KD-tree/main.cpp`.

* A `KDNode*` is a value of the inductive type `KDNode`: `nullptr`, or a node with its
  left child, its `point` and its right child.  The tree owns its nodes and never shares
  them, so a pointer into the tree is identified with the subtree it points at.
* `std::vector<int>` is `List Int`; a coordinate is a 32-bit `int` value.  Comparisons of
  coordinates are exact.  The arithmetic of `distSquared` and of the pruning test is the
  machine's: `int` operations wrap to 32 bits (`wrapSigned`), `long` is 64 bits, `std::pow`
  and the `long += double` accumulation round to binary64 (`toDouble`), and a `double`
  outside the range of `long` converts to `LONG_MIN` (`doubleToLong`).
* Operations return `Option`: `none` stands for an execution that stops on undefined
  behaviour (`depth % 0` in `get` on a point without coordinates, a null dereference,
  `points[0]` on an empty vector).  A returned null pointer is the value
  `some KDNode.nullptr`.  Signed overflow and a conversion out of range, undefined in C++
  as well, do not stop the run and take the values of a two's-complement x86-64 machine.
* The theorems named `_of_small` show what holds when every coordinate lies between `-B`
  and `B` with `D * (2 * B) ^ 2 < 2 ^ 53`, where no operation wraps or rounds.
* Mutation of the tree is explicit state passing: `add` returns the tree after the call.
-/

namespace EDAA

/-- The value of a `KDNode*`: null, or a node owning `left`, `point` and `right`. -/
inductive KDNode where
  | nullptr : KDNode
  | node (left : KDNode) (point : List Int) (right : KDNode) : KDNode
deriving DecidableEq

/-- The struct `KDPoint`: a vector of coordinates. -/
structure KDPoint where
  props : List Int
deriving DecidableEq

/-- The class `KDTree`: the root pointer and the recorded `numDims`. -/
structure KDTree where
  root : KDNode
  numDims : Int
deriving DecidableEq

/-- The constructor `KDNode(props)`: a node holding `props` with both children null. -/
def KDNode.new (props : List Int) : KDNode :=
  .node .nullptr props .nullptr

/-- The test `p == nullptr`. -/
def KDNode.isNull : KDNode → Bool
  | .nullptr => true
  | .node _ _ _ => false

/-- The member access `n->point`; undefined on the null pointer. -/
def KDNode.point? : KDNode → Option (List Int)
  | .nullptr => none
  | .node _ point _ => some point

/-- `KDNode::get`: `point[depth % numDims]` with `numDims = point.size()`; undefined on the
null pointer and when the point has no coordinate (`depth % 0`). -/
def KDNode.get : KDNode → Nat → Option Int
  | .nullptr, _ => none
  | .node _ point _, depth =>
    if point.length = 0 then none else point[depth % point.length]?

/-- `KDPoint::get`: `props[depth % props.size()]`; undefined when `props` is empty. -/
def KDPoint.get (p : KDPoint) (depth : Nat) : Option Int :=
  if p.props.length = 0 then none else p.props[depth % p.props.length]?

/-- `KDPoint::size`. -/
def KDPoint.size (p : KDPoint) : Nat :=
  p.props.length

/-- The value an integer takes in a two's-complement signed type of `w` bits. -/
def wrapSigned (w : Nat) (x : Int) : Int :=
  (x + 2 ^ (w - 1)) % 2 ^ w - 2 ^ (w - 1)

/-- The product `dist * dist` of line 136 on machine integers, for `int` of 32 bits and
`long` of 64 bits: line 134 subtracts two `int` values in `int`, converts the result to
`long`, and line 136 multiplies in `long`. -/
def distTimesDist (t n : Int) : Int :=
  let dist : Int := wrapSigned 32 (t - n)
  wrapSigned 64 (dist * dist)

/-- The least `e`, from the start value on, with `n < 2 ^ (53 + e)`, searched over `fuel`
steps: the exponent of the spacing of the binary64 numbers around `n`. -/
def roundExp : Nat → Nat → Nat → Nat
  | 0, _, e => e
  | fuel + 1, n, e => if n < 2 ^ (53 + e) then e else roundExp fuel n (e + 1)

/-- The natural number nearest to `n` among those a binary64 `double` represents: 53
significant bits, round to nearest, ties to the even significand. -/
def roundNat (n : Nat) : Nat :=
  let e := roundExp 971 n 0
  let q := n / 2 ^ e
  let rem := n % 2 ^ e
  if 2 * rem < 2 ^ e then q * 2 ^ e
  else if 2 ^ e < 2 * rem then (q + 1) * 2 ^ e
  else (q + q % 2) * 2 ^ e

/-- The `double` that an integer value rounds to, as an integer: the conversion of a `long`
to `double` and the rounding of the exact result of a `double` operation.  Every `double` of
`distSquared` has an integer value and is represented by that value. -/
def toDouble (x : Int) : Int :=
  if x < 0 then -((roundNat x.natAbs : Nat) : Int) else ((roundNat x.natAbs : Nat) : Int)

/-- The conversion of an integer-valued `double` to `long`; outside the range of `long` the
conversion is undefined in C++ and gives `LONG_MIN`, as the x86-64 instruction does. -/
def doubleToLong (x : Int) : Int :=
  if -2 ^ 63 ≤ x ∧ x < 2 ^ 63 then x else -2 ^ 63

/-- Line 163, `int diff = std::abs(a - b)`: the subtraction and the absolute value are `int`
operations. -/
def absDiff (a b : Int) : Int :=
  wrapSigned 32 ((wrapSigned 32 (a - b)).natAbs : Int)

/-- Line 164, `total += std::pow(diff, 2)`: `diff` is squared in `double`, `total` is
converted to `double`, the two are added in `double`, and the sum is converted to `long`. -/
def addSquare (total diff : Int) : Int :=
  doubleToLong (toDouble (toDouble total + toDouble (diff * diff)))

/-- The body of the loop of `distSquared` at index `i` with accumulator `total`. -/
def distSquaredStep (p0 p1 : KDPoint) (total : Int) (i : Nat) : Option Int := do
  let a ← p0.get i
  let b ← p1.get i
  let diff : Int := absDiff a b
  pure (addSquare total diff)

/-- `KDTree::distSquared`: the loop runs over `i < p0.props.size()` and reads both points
through `get`, so the second point is read cyclically; `total` starts at 0 and the value
returned is the `long` accumulated by `addSquare`. -/
def distSquared (p0 p1 : KDPoint) : Option Int :=
  (List.range p0.props.length).foldlM (distSquaredStep p0 p1) 0

/-- `KDTree::closest`: a null argument yields the other one; otherwise `n0` when its
distance is strictly smaller and `n1` in every other case. -/
def closest (n0 n1 : KDNode) (target : KDPoint) : Option KDNode :=
  match n0, n1 with
  | .nullptr, _ => some n1
  | _, .nullptr => some n0
  | .node _ q0 _, .node _ q1 _ => do
    let d1 ← distSquared ⟨q0⟩ target
    let d2 ← distSquared ⟨q1⟩ target
    if d1 < d2 then some n0 else some n1

/-- The private `KDTree::add(root, n, k)`; the result is the node `root` after the call. -/
def add : KDNode → KDNode → Nat → Option KDNode
  | .nullptr, _, _ => none
  | .node left point right, n, k => do
    let a ← n.get k
    let b ← (KDNode.node left point right).get k
    if a < b then
      if left.isNull then
        some (.node n point right)
      else do
        let left' ← add left n (k + 1)
        some (.node left' point right)
    else
      if right.isNull then
        some (.node left point n)
      else do
        let right' ← add right n (k + 1)
        some (.node left point right')

/-- The public `KDTree::add(point)`. -/
def KDTree.add (t : KDTree) (point : KDNode) : Option KDTree :=
  if t.root.isNull then
    some { t with root := point }
  else do
    let root' ← EDAA.add t.root point 0
    some { t with root := root' }

/-- The constructor `KDTree(int numDims)`: no root. -/
def KDTree.new (numDims : Int) : KDTree :=
  { root := .nullptr, numDims := numDims }

/-- The constructor `KDTree(const std::vector<std::vector<int>>& points)`; `points[0]` is
undefined on the empty vector. -/
def KDTree.ofPoints (points : List (List Int)) : Option KDTree :=
  match points with
  | [] => none
  | p0 :: rest => do
    let root ← rest.foldlM (fun root p => EDAA.add root (KDNode.new p) 0) (KDNode.new p0)
    some { root := root, numDims := (p0.length : Int) }

/-- Lines 129-141 of the private `nearestNeighbor`, once the two branches are chosen:
`next` is the outcome of the recursive call on `nextBranch`, and `other` the outcome of the
call on `otherBranch`, which is consulted only when the pruning test lets it run.  The test
compares the `long` returned by `distSquared` with `dist * dist`, where `dist` is the `int`
difference of line 134 (`distTimesDist`). -/
def nearestNeighborRest (root : KDNode) (target : KDPoint) (depth : Nat)
    (next other : Option KDNode) : Option KDNode := do
  let temp ← next
  let best ← closest temp root target
  let bestPoint ← best.point?
  let radiusSquared ← distSquared target ⟨bestPoint⟩
  let t ← target.get depth
  let r ← root.get depth
  if radiusSquared ≥ distTimesDist t r then do
    let temp ← other
    closest temp best target
  else
    some best

/-- The private `KDTree::nearestNeighbor(root, target, depth)`. -/
def nearestNeighbor : KDNode → KDPoint → Nat → Option KDNode
  | .nullptr, _, _ => some .nullptr
  | .node left point right, target, depth => do
    let t ← target.get depth
    let r ← (KDNode.node left point right).get depth
    if t < r then
      nearestNeighborRest (.node left point right) target depth
        (nearestNeighbor left target (depth + 1)) (nearestNeighbor right target (depth + 1))
    else
      nearestNeighborRest (.node left point right) target depth
        (nearestNeighbor right target (depth + 1)) (nearestNeighbor left target (depth + 1))

/-- The public `KDTree::nearestNeighbor(target)`. -/
def KDTree.nearestNeighbor (t : KDTree) (target : KDPoint) : Option KDNode :=
  EDAA.nearestNeighbor t.root target 0

/-- Calls `add(new KDNode(p))` for each point of `ps` in order, as the loop of `main`. -/
def KDTree.addAll (t : KDTree) (ps : List (List Int)) : Option KDTree :=
  ps.foldlM (fun t p => t.add (KDNode.new p)) t

/-! ## Notions used to state the properties -/

/-- The points stored in the tree below a pointer, the node first, then left, then right. -/
def KDNode.points : KDNode → List (List Int)
  | .nullptr => []
  | .node left point right => point :: (left.points ++ right.points)

/-- The nodes reachable from a pointer (the node itself included), each as the subtree it
roots. -/
def KDNode.nodes : KDNode → List KDNode
  | .nullptr => []
  | .node left point right => .node left point right :: (left.nodes ++ right.nodes)

/-- The number of nodes reachable from a pointer. -/
def KDNode.count : KDNode → Nat
  | .nullptr => 0
  | .node left _ right => 1 + left.count + right.count

/-- The pointer found by following a path of child links from a pointer (`false` is `left`,
`true` is `right`); following a link of the null pointer gives the null pointer. -/
def KDNode.follow : KDNode → List Bool → KDNode
  | n, [] => n
  | .nullptr, _ :: _ => .nullptr
  | .node left _ right, b :: path => if b then right.follow path else left.follow path

/-- The coordinate that `get` reads at `depth` in a point with at least one coordinate. -/
def coord (p : List Int) (depth : Nat) : Int :=
  (p[depth % p.length]?).getD 0

/-- The exact squared Euclidean distance of two points over the axes of the first one:
the sum over `i < p.length` of `(p[i] - q[i])^2`. -/
def sqDist (p q : List Int) : Int :=
  ((List.range p.length).map (fun i => (p.getD i 0 - q.getD i 0) ^ 2)).sum

/-- The `long` that the loop of `distSquared` accumulates over `i < p0.length`, from the
coordinates `p0[i]` and `p1[i mod p1.length]`, in the machine's arithmetic. -/
def loopDist (p0 p1 : List Int) : Int :=
  (List.range p0.length).foldl
    (fun total i => addSquare total (absDiff (coord p0 i) (coord p1 i))) 0

/-- Every coordinate of the point lies between `-B` and `B`. -/
def SmallCoords (B : Int) (p : List Int) : Prop :=
  ∀ c ∈ p, -B ≤ c ∧ c ≤ B

/-- Every coordinate of every point stored below the pointer lies between `-B` and `B`. -/
def KDNode.AllSmall (B : Int) (n : KDNode) : Prop :=
  ∀ p ∈ n.points, SmallCoords B p

instance (B : Int) (p : List Int) : Decidable (SmallCoords B p) := by
  unfold SmallCoords; infer_instance

instance (B : Int) (n : KDNode) : Decidable (n.AllSmall B) := by
  unfold KDNode.AllSmall; infer_instance

/-- Every point stored below the pointer has at least one coordinate. -/
def KDNode.AllNonEmpty (n : KDNode) : Prop :=
  ∀ p ∈ n.points, p ≠ []

/-- Every point stored below the pointer has exactly `D` coordinates. -/
def KDNode.AllLength (D : Nat) (n : KDNode) : Prop :=
  ∀ p ∈ n.points, p.length = D

instance (n : KDNode) : Decidable n.AllNonEmpty := by
  unfold KDNode.AllNonEmpty; infer_instance

instance (D : Nat) (n : KDNode) : Decidable (n.AllLength D) := by
  unfold KDNode.AllLength; infer_instance

/-- The splitting invariant at depth `k`: below a node, the left subtree holds the points
whose coordinate at `k` is strictly smaller than the node's, the right subtree those whose
coordinate is greater or equal, and both subtrees satisfy the invariant at depth `k + 1`. -/
def KDNode.Split : Nat → KDNode → Prop
  | _, .nullptr => True
  | k, .node left point right =>
    (∀ q ∈ left.points, coord q k < coord point k) ∧
    (∀ q ∈ right.points, coord point k ≤ coord q k) ∧
    KDNode.Split (k + 1) left ∧ KDNode.Split (k + 1) right

/-- A linear scan over the points in the given order that keeps the first point found at
minimum squared distance to the target: a later point replaces the current one only when it
is strictly closer. -/
def scanNearest (target : List Int) : List (List Int) → Option (List Int)
  | [] => none
  | p :: rest =>
    some (rest.foldl (fun best q => if sqDist target q < sqDist target best then q else best) p)

/-- The candidate `res` is at least as close to the target as the candidate `n`, in the
distance that `closest` compares: when `n` is a node, `res` is a node too and its distance
is not larger. -/
def Closer (target : List Int) (res n : KDNode) : Prop :=
  ∀ a b c, n = .node a b c →
    ∃ a' b' c', res = .node a' b' c' ∧ loopDist b' target ≤ loopDist b target

/-- The five points of the example of the specification, in insertion order. -/
def examplePoints : List (List Int) :=
  [[50, 50], [80, 40], [10, 60], [51, 38], [48, 38]]

/-- The tree that holds `examplePoints` after their insertion in order. -/
def exampleRoot : KDNode :=
  .node (.node (KDNode.new [48, 38]) [10, 60] .nullptr) [50, 50]
    (.node (KDNode.new [51, 38]) [80, 40] .nullptr)

/-- Three points of length 2, the last two at the same distance of the target `(10, 5)`. -/
def tiePoints : List (List Int) :=
  [[10, 0], [8, 5], [12, 5]]

/-- The variable `nextBranch` after lines 118-127 of the private `nearestNeighbor`; a call
on the null pointer returns before and has no such variable. -/
def nextBranch : KDNode → KDPoint → Nat → Option KDNode
  | .nullptr, _, _ => none
  | .node left point right, target, depth => do
    let t ← target.get depth
    let r ← (KDNode.node left point right).get depth
    if t < r then some left else some right

/-- The variable `otherBranch` after lines 118-127 of the private `nearestNeighbor`. -/
def otherBranch : KDNode → KDPoint → Nat → Option KDNode
  | .nullptr, _, _ => none
  | .node left point right, target, depth => do
    let t ← target.get depth
    let r ← (KDNode.node left point right).get depth
    if t < r then some right else some left

/-- The variable `best` after line 130 of the private `nearestNeighbor`: the closer of the
result of the call on `nextBranch` and the node itself. -/
def bestBeforeOther (root : KDNode) (target : KDPoint) (depth : Nat) : Option KDNode := do
  let next ← nextBranch root target depth
  let temp ← nearestNeighbor next target (depth + 1)
  closest temp root target

/-- The variable `radiusSquared` of line 132 of the private `nearestNeighbor`. -/
def radiusSquared (root : KDNode) (target : KDPoint) (depth : Nat) : Option Int := do
  let best ← bestBeforeOther root target depth
  let bestPoint ← best.point?
  distSquared target ⟨bestPoint⟩

/-- Lines 129-141 of `nearestNeighbor` with the pruning test `radiusSquared >= dist * dist`
replaced by the strict test `radiusSquared > dist * dist`. -/
def nearestNeighborRestStrict (root : KDNode) (target : KDPoint) (depth : Nat)
    (next other : Option KDNode) : Option KDNode := do
  let temp ← next
  let best ← closest temp root target
  let bestPoint ← best.point?
  let radiusSquared ← distSquared target ⟨bestPoint⟩
  let t ← target.get depth
  let r ← root.get depth
  if radiusSquared > distTimesDist t r then do
    let temp ← other
    closest temp best target
  else
    some best

/-- The private `nearestNeighbor` with the strict pruning test in every call. -/
def nearestNeighborStrict : KDNode → KDPoint → Nat → Option KDNode
  | .nullptr, _, _ => some .nullptr
  | .node left point right, target, depth => do
    let t ← target.get depth
    let r ← (KDNode.node left point right).get depth
    if t < r then
      nearestNeighborRestStrict (.node left point right) target depth
        (nearestNeighborStrict left target (depth + 1))
        (nearestNeighborStrict right target (depth + 1))
    else
      nearestNeighborRestStrict (.node left point right) target depth
        (nearestNeighborStrict right target (depth + 1))
        (nearestNeighborStrict left target (depth + 1))

/-- The splitting invariant at depth `k` written with the common length `D` of the points:
below a node, every point `q` of the left subtree has `q[k mod D]` strictly smaller than the
node's, every point of the right subtree has it greater or equal, and both subtrees satisfy
the invariant at depth `k + 1`. -/
def KDNode.SplitD (D : Nat) : Nat → KDNode → Prop
  | _, .nullptr => True
  | k, .node left point right =>
    (∀ q ∈ left.points, q.getD (k % D) 0 < point.getD (k % D) 0) ∧
    (∀ q ∈ right.points, point.getD (k % D) 0 ≤ q.getD (k % D) 0) ∧
    KDNode.SplitD D (k + 1) left ∧ KDNode.SplitD D (k + 1) right

/-- The vector `points` of `main`. -/
def mainPoints : List (List Int) :=
  [[50, 50, 1], [80, 40, 2], [10, 60, 3], [51, 38, 4], [48, 38, 5]]

/-- The tree that holds the points of `main` after their insertion in order. -/
def mainRoot : KDNode :=
  .node (.node (KDNode.new [48, 38, 5]) [10, 60, 3] .nullptr) [50, 50, 1]
    (.node (KDNode.new [51, 38, 4]) [80, 40, 2] .nullptr)

/-- Two points of length 2 whose squared distances to the target `(0, 0)`,
`9007199515875290` and `9007199515875289`, are above `2 ^ 53`. -/
def roundingPoints : List (List Int) :=
  [[94906267, 1], [94906267, 0]]

/-- The tree that holds `roundingPoints` after their insertion in order. -/
def roundingRoot : KDNode :=
  .node .nullptr [94906267, 1] (KDNode.new [94906267, 0])

/-- Two points of length 3, the second with three coordinates `INT_MAX`. -/
def overflowPoints : List (List Int) :=
  [[0, 0, 0], [2147483647, 2147483647, 2147483647]]

/-- Two points of length 1 for which the target `(2146435072)` is more than `INT_MAX` away
from the second. -/
def wrapPoints : List (List Int) :=
  [[0], [-3145728]]

/-! ## Machine arithmetic -/

theorem wrapSigned_32_of_range (x : Int) (h0 : -2147483648 ≤ x) (h1 : x ≤ 2147483647) :
    wrapSigned 32 x = x := by
  unfold wrapSigned
  norm_num
  omega

theorem wrapSigned_64_of_range (x : Int) (h0 : -9223372036854775808 ≤ x)
    (h1 : x ≤ 9223372036854775807) : wrapSigned 64 x = x := by
  unfold wrapSigned
  norm_num
  omega

/-- When the difference of the two coordinates fits in an `int`, the product of line 136 is
the exact square. -/
theorem distTimesDist_of_small (t n : Int) (h0 : -2147483648 ≤ t - n)
    (h1 : t - n ≤ 2147483647) : distTimesDist t n = (t - n) ^ 2 := by
  unfold distTimesDist
  simp only
  rw [wrapSigned_32_of_range (t - n) h0 h1, wrapSigned_64_of_range _ (by nlinarith) (by nlinarith)]
  ring

theorem roundExp_small (n : Nat) (h : n < 2 ^ 53) : roundExp 971 n 0 = 0 := by
  rw [show (971 : Nat) = 970 + 1 from rfl, roundExp, if_pos h]

theorem roundNat_small (n : Nat) (h : n < 2 ^ 53) : roundNat n = n := by
  simp [roundNat, roundExp_small n h, Nat.mod_one]

/-- An integer below `2 ^ 53` in absolute value is a `double`. -/
theorem toDouble_small (x : Int) (h0 : -2 ^ 53 < x) (h1 : x < 2 ^ 53) : toDouble x = x := by
  have hn : x.natAbs < 2 ^ 53 := by omega
  unfold toDouble
  rw [roundNat_small _ hn]
  split_ifs <;> omega

theorem natAbs_wrap_comm (a b : Int) :
    (wrapSigned 32 (a - b)).natAbs = (wrapSigned 32 (b - a)).natAbs := by
  unfold wrapSigned
  omega

/-- Line 163 gives the same `diff` for `(a, b)` and `(b, a)`, wrapped or not. -/
theorem absDiff_comm (a b : Int) : absDiff a b = absDiff b a := by
  unfold absDiff
  rw [natAbs_wrap_comm]

theorem absDiff_small (a b : Int) (h0 : -2147483647 ≤ a - b) (h1 : a - b ≤ 2147483647) :
    absDiff a b = ((a - b).natAbs : Int) := by
  unfold absDiff wrapSigned
  omega

/-- Below `2 ^ 53` line 164 adds the exact square. -/
theorem addSquare_small (total diff : Int) (h0 : 0 ≤ total)
    (h1 : total + diff * diff < 2 ^ 53) : addSquare total diff = total + diff * diff := by
  have hd : 0 ≤ diff * diff := mul_self_nonneg diff
  unfold addSquare
  rw [toDouble_small total (by omega) (by omega),
    toDouble_small (diff * diff) (by omega) (by omega), toDouble_small _ (by omega) (by omega)]
  unfold doubleToLong
  rw [if_pos]
  constructor <;> omega

/-! ## Coordinates and distances -/

theorem getElem?_eq_some_getD (p : List Int) (i : Nat) (h : i < p.length) :
    p[i]? = some ((p[i]?).getD 0) := by
  rw [List.getElem?_eq_getElem h]; rfl

theorem KDPoint.get_point_eq (p : List Int) (depth : Nat) (h : p ≠ []) :
    KDPoint.get ⟨p⟩ depth = some (coord p depth) := by
  have hl : 0 < p.length := List.length_pos.mpr h
  unfold KDPoint.get coord
  simp only [Nat.ne_of_gt hl, if_false]
  exact getElem?_eq_some_getD p _ (Nat.mod_lt _ hl)

theorem KDNode.get_node_eq (l r : KDNode) (p : List Int) (depth : Nat) (h : p ≠ []) :
    (KDNode.node l p r).get depth = some (coord p depth) := by
  have hl : 0 < p.length := List.length_pos.mpr h
  unfold KDNode.get coord
  simp only [Nat.ne_of_gt hl, if_false]
  exact getElem?_eq_some_getD p _ (Nat.mod_lt _ hl)

theorem KDNode.get_new (p : List Int) (depth : Nat) (h : p ≠ []) :
    (KDNode.new p).get depth = some (coord p depth) :=
  KDNode.get_node_eq _ _ p depth h

theorem coord_of_lt (p : List Int) (i : Nat) (h : i < p.length) :
    coord p i = p.getD i 0 := by
  unfold coord
  rw [Nat.mod_eq_of_lt h, List.getD_eq_getElem?_getD]

theorem coord_mem (p : List Int) (k : Nat) (h : p ≠ []) : coord p k ∈ p := by
  have hl : 0 < p.length := List.length_pos.mpr h
  have hk : k % p.length < p.length := Nat.mod_lt _ hl
  unfold coord
  rw [List.getElem?_eq_getElem hk]
  exact List.getElem_mem hk

theorem distSquaredStep_eq (p0 p1 : List Int) (total : Int) (i : Nat)
    (h0 : p0 ≠ []) (h1 : p1 ≠ []) :
    distSquaredStep ⟨p0⟩ ⟨p1⟩ total i
      = some (addSquare total (absDiff (coord p0 i) (coord p1 i))) := by
  unfold distSquaredStep
  rw [KDPoint.get_point_eq p0 i h0, KDPoint.get_point_eq p1 i h1]
  rfl

theorem foldlM_distSquaredStep (p0 p1 : List Int) (h0 : p0 ≠ []) (h1 : p1 ≠ [])
    (is : List Nat) (total : Int) :
    is.foldlM (distSquaredStep ⟨p0⟩ ⟨p1⟩) total
      = some (is.foldl (fun total i => addSquare total (absDiff (coord p0 i) (coord p1 i)))
          total) := by
  induction is generalizing total with
  | nil => simp
  | cons i rest ih =>
    rw [List.foldlM_cons, distSquaredStep_eq p0 p1 total i h0 h1]
    simp only [Option.some_bind, Option.bind_eq_bind, ih, List.foldl_cons]

/-- The loop of `distSquared` returns `loopDist` whenever the second point has a coordinate
to read. -/
theorem distSquared_eq_loopDist (p0 p1 : List Int) (h1 : p1 ≠ []) :
    distSquared ⟨p0⟩ ⟨p1⟩ = some (loopDist p0 p1) := by
  by_cases h0 : p0 = []
  · subst h0; simp [distSquared, loopDist]
  · unfold distSquared loopDist
    rw [foldlM_distSquaredStep p0 p1 h0 h1]

/-- The value of `distSquared` is the same in both orders on points of equal length. -/
theorem loopDist_comm (p q : List Int) (h : p.length = q.length) :
    loopDist p q = loopDist q p := by
  have hf : (fun (total : Int) (i : Nat) => addSquare total (absDiff (coord p i) (coord q i)))
      = (fun total i => addSquare total (absDiff (coord q i) (coord p i))) := by
    funext total i
    rw [absDiff_comm]
  unfold loopDist
  rw [h, hf]

theorem small_diff (B a b : Int) (hB : (2 * B) ^ 2 < 2 ^ 53) (ha : -B ≤ a ∧ a ≤ B)
    (hb : -B ≤ b ∧ b ≤ B) :
    -2147483647 ≤ a - b ∧ a - b ≤ 2147483647 ∧ (a - b) * (a - b) ≤ (2 * B) ^ 2 := by
  have hB0 : 0 ≤ B := by omega
  have h2 : 2 * B < 2147483647 := by nlinarith
  refine ⟨by omega, by omega, ?_⟩
  nlinarith

/-- While the partial sums stay below `2 ^ 53`, the loop of `distSquared` accumulates the
exact squares. -/
theorem foldl_addSquare_small (p q : List Int) (B : Int) (hp : SmallCoords B p)
    (hq : SmallCoords B q) (hpne : p ≠ []) (hqne : q ≠ []) (is : List Nat) (total : Int)
    (h0 : 0 ≤ total) (hbound : total + (is.length : Int) * (2 * B) ^ 2 < 2 ^ 53) :
    is.foldl (fun total i => addSquare total (absDiff (coord p i) (coord q i))) total
      = total + (is.map (fun i => (coord p i - coord q i) ^ 2)).sum := by
  induction is generalizing total with
  | nil => simp
  | cons i rest ih =>
    simp only [List.length_cons, Nat.cast_add, Nat.cast_one] at hbound
    have hsq : (0 : Int) ≤ (2 * B) ^ 2 := by positivity
    have hrest : (0 : Int) ≤ (rest.length : Int) * (2 * B) ^ 2 := by positivity
    have hB : (2 * B) ^ 2 < 2 ^ 53 := by nlinarith
    obtain ⟨hd0, hd1, hd2⟩ :=
      small_diff B (coord p i) (coord q i) hB (hp _ (coord_mem p i hpne))
        (hq _ (coord_mem q i hqne))
    have habs : absDiff (coord p i) (coord q i) * absDiff (coord p i) (coord q i)
        = (coord p i - coord q i) * (coord p i - coord q i) := by
      rw [absDiff_small _ _ hd0 hd1]
      exact Int.natAbs_mul_self' _
    have hstep : addSquare total (absDiff (coord p i) (coord q i))
        = total + (coord p i - coord q i) * (coord p i - coord q i) := by
      rw [addSquare_small total _ h0 (by rw [habs]; nlinarith), habs]
    have hnn : 0 ≤ (coord p i - coord q i) * (coord p i - coord q i) := mul_self_nonneg _
    simp only [List.foldl_cons, List.map_cons, List.sum_cons, hstep]
    rw [ih _ (by omega) (by nlinarith)]
    ring

/-- With coordinates between `-B` and `B` and `D * (2 * B) ^ 2 < 2 ^ 53`, no step of
`distSquared` wraps or rounds: on points of equal length `D` the loop accumulates the exact
squared distance. -/
theorem loopDist_eq_sqDist (B : Int) (p q : List Int) (h : p.length = q.length)
    (hB : (p.length : Int) * (2 * B) ^ 2 < 2 ^ 53) (hp : SmallCoords B p)
    (hq : SmallCoords B q) : loopDist p q = sqDist p q := by
  by_cases hpne : p = []
  · subst hpne; simp [loopDist, sqDist]
  · have hqne : q ≠ [] := by
      intro h0; rw [h0] at h; exact hpne (List.length_eq_zero.mp (by simpa using h))
    unfold loopDist
    rw [foldl_addSquare_small p q B hp hq hpne hqne _ 0 (le_refl _)
      (by simpa using hB), zero_add]
    unfold sqDist
    congr 1
    apply List.map_congr_left
    intro i hi
    have hi' : i < p.length := List.mem_range.mp hi
    rw [coord_of_lt p i hi', coord_of_lt q i (h ▸ hi')]

/-- On small coordinates `distSquared` returns the exact squared distance. -/
theorem distSquared_eq_sqDist (B : Int) (p q : List Int) (h : p.length = q.length)
    (hq0 : q ≠ []) (hB : (p.length : Int) * (2 * B) ^ 2 < 2 ^ 53) (hp : SmallCoords B p)
    (hq : SmallCoords B q) : distSquared ⟨p⟩ ⟨q⟩ = some (sqDist p q) := by
  rw [distSquared_eq_loopDist p q hq0, loopDist_eq_sqDist B p q h hB hp hq]

theorem sqDist_comm (p q : List Int) (h : p.length = q.length) :
    sqDist p q = sqDist q p := by
  unfold sqDist
  rw [h]
  congr 1
  apply List.map_congr_left
  intro i _
  ring

theorem sqDist_nonneg (p q : List Int) : 0 ≤ sqDist p q := by
  unfold sqDist
  apply List.sum_nonneg
  intro x hx
  obtain ⟨i, _, rfl⟩ := List.mem_map.mp hx
  positivity

/-- One axis contributes at most the whole squared distance. -/
theorem sq_coord_le_sqDist (p q : List Int) (k : Nat) (h : p.length = q.length)
    (hp : p ≠ []) : (coord p k - coord q k) ^ 2 ≤ sqDist p q := by
  have hl : 0 < p.length := List.length_pos.mpr hp
  have hk : k % p.length < p.length := Nat.mod_lt _ hl
  have hcp : coord p k = p.getD (k % p.length) 0 := by
    unfold coord; rw [List.getD_eq_getElem?_getD]
  have hcq : coord q k = q.getD (k % p.length) 0 := by
    unfold coord; rw [← h, List.getD_eq_getElem?_getD]
  rw [hcp, hcq]
  unfold sqDist
  apply List.single_le_sum
  · intro x hx
    obtain ⟨i, _, rfl⟩ := List.mem_map.mp hx
    positivity
  · exact List.mem_map.mpr ⟨k % p.length, List.mem_range.mpr hk, rfl⟩

theorem sqDist_self (p : List Int) : sqDist p p = 0 := by
  unfold sqDist
  apply List.sum_eq_zero
  intro x hx
  obtain ⟨i, _, rfl⟩ := List.mem_map.mp hx
  simp

theorem eq_of_sqDist_eq_zero (p q : List Int) (h : p.length = q.length)
    (hz : sqDist p q = 0) : p = q := by
  apply List.ext_getElem h
  intro i h1 h2
  have hle : (p.getD i 0 - q.getD i 0) ^ 2 ≤ sqDist p q := by
    unfold sqDist
    apply List.single_le_sum
    · intro x hx
      obtain ⟨j, _, rfl⟩ := List.mem_map.mp hx
      positivity
    · exact List.mem_map.mpr ⟨i, List.mem_range.mpr h1, rfl⟩
  rw [hz] at hle
  have hsq : (p.getD i 0 - q.getD i 0) ^ 2 = 0 := le_antisymm hle (by positivity)
  have hd : p.getD i 0 - q.getD i 0 = 0 := by
    exact pow_eq_zero_iff (by norm_num) |>.mp hsq
  rw [List.getD_eq_getElem _ _ h1, List.getD_eq_getElem _ _ h2] at hd
  omega

/-! ## Insertion -/

theorem KDNode.isNull_iff (n : KDNode) : n.isNull = true ↔ n = .nullptr := by
  cases n <;> simp [KDNode.isNull]

/-- One step of the private `add`, with the two coordinates it compares made explicit. -/
theorem add_node_eq (l r n : KDNode) (q : List Int) (k : Nat) (a b : Int)
    (ha : n.get k = some a) (hb : (KDNode.node l q r).get k = some b) :
    add (.node l q r) n k =
      if a < b then
        (if l = .nullptr then some (.node n q r)
         else (add l n (k + 1)).map (fun l' => .node l' q r))
      else
        (if r = .nullptr then some (.node l q n)
         else (add r n (k + 1)).map (fun r' => .node l q r')) := by
  rw [add, ha, hb]
  simp only [Option.bind_eq_bind, Option.some_bind]
  by_cases hab : a < b
  · simp only [hab, if_true]
    cases l with
    | nullptr => simp [KDNode.isNull]
    | node ll lp lr =>
      simp only [KDNode.isNull, Bool.false_eq_true, if_false, reduceCtorEq]
      cases add (.node ll lp lr) n (k + 1) <;> rfl
  · simp only [hab, if_false]
    cases r with
    | nullptr => simp [KDNode.isNull]
    | node rl rp rr =>
      simp only [KDNode.isNull, Bool.false_eq_true, if_false, reduceCtorEq]
      cases add (.node rl rp rr) n (k + 1) <;> rfl

theorem KDNode.allNonEmpty_node {l r : KDNode} {q : List Int}
    (h : (KDNode.node l q r).AllNonEmpty) : q ≠ [] ∧ l.AllNonEmpty ∧ r.AllNonEmpty := by
  refine ⟨h q (by simp [KDNode.points]), ?_, ?_⟩
  · intro x hx; exact h x (by simp [KDNode.points, hx])
  · intro x hx; exact h x (by simp [KDNode.points, hx])

theorem KDNode.allLength_node {D : Nat} {l r : KDNode} {q : List Int}
    (h : (KDNode.node l q r).AllLength D) : q.length = D ∧ l.AllLength D ∧ r.AllLength D := by
  refine ⟨h q (by simp [KDNode.points]), ?_, ?_⟩
  · intro x hx; exact h x (by simp [KDNode.points, hx])
  · intro x hx; exact h x (by simp [KDNode.points, hx])

theorem KDNode.AllLength.allNonEmpty {D : Nat} {n : KDNode} (hD : 1 ≤ D)
    (h : n.AllLength D) : n.AllNonEmpty := by
  intro p hp hnil
  have := h p hp
  rw [hnil] at this
  simp at this
  omega

/-- The private `add` returns on a tree of points with coordinates; the node it returns
holds the old points and the new one, one node more, and keeps the splitting invariant. -/
theorem add_spec (p : List Int) (hp : p ≠ []) (root : KDNode) (k : Nat)
    (hroot : root ≠ .nullptr) (hne : root.AllNonEmpty) :
    ∃ root', add root (KDNode.new p) k = some root' ∧ root' ≠ .nullptr ∧
      root'.points.Perm (p :: root.points) ∧ root'.count = root.count + 1 ∧
      (root.Split k → root'.Split k) := by
  induction root generalizing k with
  | nullptr => exact absurd rfl hroot
  | node l q r ihl ihr =>
    obtain ⟨hq, hl, hr⟩ := KDNode.allNonEmpty_node hne
    rw [add_node_eq l r (KDNode.new p) q k _ _ (KDNode.get_new p k hp) (KDNode.get_node_eq l r q k hq)]
    by_cases hab : coord p k < coord q k
    · simp only [hab, if_true]
      by_cases hln : l = .nullptr
      · subst hln
        refine ⟨.node (KDNode.new p) q r, by simp, by simp, ?_, ?_, ?_⟩
        · simp only [KDNode.points, KDNode.new, List.append_nil, List.nil_append,
            List.cons_append]
          exact List.Perm.swap _ _ _
        · simp only [KDNode.count, KDNode.new]; omega
        · intro hs
          simp only [KDNode.Split, KDNode.new, KDNode.points] at hs ⊢
          refine ⟨?_, hs.2.1, ⟨by simp, by simp, trivial, trivial⟩, hs.2.2.2⟩
          intro x hx
          simp only [List.append_nil, List.mem_singleton] at hx
          subst hx; exact hab
      · obtain ⟨l', hl', _, hperm, hcount, hsplit⟩ := ihl (k + 1) hln hl
        refine ⟨.node l' q r, by simp [hln, hl'], by simp, ?_, ?_, ?_⟩
        · simp only [KDNode.points]
          have h1 : (q :: (l'.points ++ r.points)).Perm (q :: ((p :: l.points) ++ r.points)) :=
            List.Perm.cons _ (List.Perm.append_right _ hperm)
          exact h1.trans (List.Perm.swap _ _ _)
        · simp only [KDNode.count, hcount]; omega
        · intro hs
          simp only [KDNode.Split] at hs ⊢
          refine ⟨?_, hs.2.1, hsplit hs.2.2.1, hs.2.2.2⟩
          intro x hx
          rcases List.mem_cons.mp (hperm.mem_iff.mp hx) with rfl | hx'
          · exact hab
          · exact hs.1 x hx'
    · simp only [hab, if_false]
      by_cases hrn : r = .nullptr
      · subst hrn
        refine ⟨.node l q (KDNode.new p), by simp, by simp, ?_, ?_, ?_⟩
        · simp only [KDNode.points, KDNode.new, List.append_nil, List.nil_append]
          have h1 : (q :: (l.points ++ [p])).Perm (q :: (p :: l.points)) :=
            List.Perm.cons _ (List.perm_append_singleton _ _)
          exact h1.trans (List.Perm.swap _ _ _)
        · simp only [KDNode.count, KDNode.new]
        · intro hs
          simp only [KDNode.Split, KDNode.new, KDNode.points] at hs ⊢
          refine ⟨hs.1, ?_, hs.2.2.1, ⟨by simp, by simp, trivial, trivial⟩⟩
          intro x hx
          simp only [List.append_nil, List.mem_singleton] at hx
          subst hx; exact not_lt.mp hab
      · obtain ⟨r', hr', _, hperm, hcount, hsplit⟩ := ihr (k + 1) hrn hr
        refine ⟨.node l q r', by simp [hrn, hr'], by simp, ?_, ?_, ?_⟩
        · simp only [KDNode.points]
          have h1 : (q :: (l.points ++ r'.points)).Perm (q :: (l.points ++ (p :: r.points))) :=
            List.Perm.cons _ (List.Perm.append_left _ hperm)
          have h2 : (l.points ++ (p :: r.points)).Perm (p :: (l.points ++ r.points)) :=
            List.perm_middle
          exact (h1.trans (List.Perm.cons _ h2)).trans (List.Perm.swap _ _ _)
        · simp only [KDNode.count, hcount]; omega
        · intro hs
          simp only [KDNode.Split] at hs ⊢
          refine ⟨hs.1, ?_, hs.2.2.1, hsplit hs.2.2.2⟩
          intro x hx
          rcases List.mem_cons.mp (hperm.mem_iff.mp hx) with rfl | hx'
          · exact not_lt.mp hab
          · exact hs.2.1 x hx'

theorem KDNode.follow_nullptr (path : List Bool) :
    KDNode.nullptr.follow path = .nullptr := by
  cases path <;> rfl

theorem KDNode.follow_new_cons (p : List Int) (b : Bool) (path : List Bool) :
    (KDNode.new p).follow (b :: path) = .nullptr := by
  cases b <;> simp [KDNode.new, KDNode.follow, KDNode.follow_nullptr]

/-- The private `add` attaches the new node at a position that was empty and leaves the
point at every other position as it was. -/
theorem add_follow (p : List Int) (hp : p ≠ []) (root : KDNode) (k : Nat)
    (hroot : root ≠ .nullptr) (hne : root.AllNonEmpty) :
    ∃ root' path, add root (KDNode.new p) k = some root' ∧
      root.follow path = .nullptr ∧ root'.follow path = KDNode.new p ∧
      ∀ path', path' ≠ path → (root'.follow path').point? = (root.follow path').point? := by
  induction root generalizing k with
  | nullptr => exact absurd rfl hroot
  | node l q r ihl ihr =>
    obtain ⟨hq, hl, hr⟩ := KDNode.allNonEmpty_node hne
    rw [add_node_eq l r (KDNode.new p) q k _ _ (KDNode.get_new p k hp) (KDNode.get_node_eq l r q k hq)]
    by_cases hab : coord p k < coord q k
    · simp only [hab, if_true]
      by_cases hln : l = .nullptr
      · subst hln
        refine ⟨.node (KDNode.new p) q r, [false], by simp, by simp [KDNode.follow],
          by simp [KDNode.follow, KDNode.new], ?_⟩
        intro path' hpath
        match path', hpath with
        | [], _ => rfl
        | true :: rest, _ => simp [KDNode.follow]
        | false :: [], h => exact absurd rfl h
        | false :: b :: rest, _ =>
          simp [KDNode.follow, KDNode.follow_new_cons, KDNode.follow_nullptr]
      · obtain ⟨l', path, hl', h0, h1, hrest⟩ := ihl (k + 1) hln hl
        refine ⟨.node l' q r, false :: path, by simp [hln, hl'], by simp [KDNode.follow, h0],
          by simp [KDNode.follow, h1], ?_⟩
        intro path' hpath
        match path', hpath with
        | [], _ => rfl
        | true :: rest, _ => simp [KDNode.follow]
        | false :: rest, h =>
          simp only [KDNode.follow, Bool.false_eq_true, if_false]
          exact hrest rest (fun he => h (by rw [he]))
    · simp only [hab, if_false]
      by_cases hrn : r = .nullptr
      · subst hrn
        refine ⟨.node l q (KDNode.new p), [true], by simp, by simp [KDNode.follow],
          by simp [KDNode.follow, KDNode.new], ?_⟩
        intro path' hpath
        match path', hpath with
        | [], _ => rfl
        | false :: rest, _ => simp [KDNode.follow]
        | true :: [], h => exact absurd rfl h
        | true :: b :: rest, _ =>
          simp [KDNode.follow, KDNode.follow_new_cons, KDNode.follow_nullptr]
      · obtain ⟨r', path, hr', h0, h1, hrest⟩ := ihr (k + 1) hrn hr
        refine ⟨.node l q r', true :: path, by simp [hrn, hr'], by simp [KDNode.follow, h0],
          by simp [KDNode.follow, h1], ?_⟩
        intro path' hpath
        match path', hpath with
        | [], _ => rfl
        | false :: rest, _ => simp [KDNode.follow]
        | true :: rest, h =>
          simp only [KDNode.follow, if_true]
          exact hrest rest (fun he => h (by rw [he]))

/-! ## Nearest-neighbour search -/

theorem closest_node_node (a c a' c' : KDNode) (q0 q1 t : List Int) (ht : t ≠ []) :
    closest (.node a q0 c) (.node a' q1 c') ⟨t⟩ =
      some (if loopDist q0 t < loopDist q1 t then .node a q0 c else .node a' q1 c') := by
  simp only [closest, distSquared_eq_loopDist _ t ht, Option.bind_eq_bind, Option.some_bind]
  split_ifs <;> rfl

theorem Closer.refl (t : List Int) (n : KDNode) : Closer t n n := by
  intro a b c h
  exact ⟨a, b, c, h, le_refl _⟩

theorem Closer.trans {t : List Int} {x y z : KDNode} (h1 : Closer t x y) (h2 : Closer t y z) :
    Closer t x z := by
  intro a b c h
  obtain ⟨a1, b1, c1, hy, hle1⟩ := h2 a b c h
  obtain ⟨a2, b2, c2, hx, hle2⟩ := h1 a1 b1 c1 hy
  exact ⟨a2, b2, c2, hx, le_trans hle2 hle1⟩

theorem Closer.nullptr (t : List Int) (n : KDNode) : Closer t n .nullptr := by
  intro a b c h
  cases h

/-- The node `closest` returns is one of its arguments and is at least as close as both. -/
theorem closest_spec (n0 n1 : KDNode) (t : List Int) (ht : t ≠ []) :
    ∃ res, closest n0 n1 ⟨t⟩ = some res ∧ (res = n0 ∨ res = n1) ∧
      Closer t res n0 ∧ Closer t res n1 := by
  cases n0 with
  | nullptr =>
    exact ⟨n1, by simp [closest], Or.inr rfl, Closer.nullptr t n1, Closer.refl t n1⟩
  | node a q0 c =>
    cases n1 with
    | nullptr =>
      exact ⟨.node a q0 c, by simp [closest], Or.inl rfl, Closer.refl t _, Closer.nullptr t _⟩
    | node a' q1 c' =>
      rw [closest_node_node a c a' c' q0 q1 t ht]
      by_cases h : loopDist q0 t < loopDist q1 t
      · refine ⟨.node a q0 c, by simp [h], Or.inl rfl, Closer.refl t _, ?_⟩
        intro x y z hxyz
        cases hxyz
        exact ⟨a, q0, c, rfl, le_of_lt h⟩
      · refine ⟨.node a' q1 c', by simp [h], Or.inr rfl, ?_, Closer.refl t _⟩
        intro x y z hxyz
        cases hxyz
        exact ⟨a', q1, c', rfl, not_lt.mp h⟩

theorem KDNode.mem_nodes_point {root n : KDNode} (h : n ∈ root.nodes) :
    ∃ a b c, n = .node a b c ∧ b ∈ root.points := by
  induction root with
  | nullptr => simp [KDNode.nodes] at h
  | node l p r ihl ihr =>
    simp only [KDNode.nodes, List.mem_cons, List.mem_append] at h
    rcases h with rfl | h | h
    · exact ⟨l, p, r, rfl, by simp [KDNode.points]⟩
    · obtain ⟨a, b, c, rfl, hb⟩ := ihl h
      exact ⟨a, b, c, rfl, by simp [KDNode.points, hb]⟩
    · obtain ⟨a, b, c, rfl, hb⟩ := ihr h
      exact ⟨a, b, c, rfl, by simp [KDNode.points, hb]⟩

theorem KDNode.self_mem_nodes (l r : KDNode) (p : List Int) :
    KDNode.node l p r ∈ (KDNode.node l p r).nodes := by
  simp [KDNode.nodes]

theorem one_bound_of_length {t : List Int} {B : Int} (ht : t ≠ [])
    (hB : (t.length : Int) * (2 * B) ^ 2 < 2 ^ 53) : (2 * B) ^ 2 < 2 ^ 53 := by
  have hl : (1 : Int) ≤ (t.length : Int) := by
    have := List.length_pos.mpr ht
    omega
  have hsq : (0 : Int) ≤ (2 * B) ^ 2 := by positivity
  nlinarith

/-- On small coordinates the product of line 136 is the exact squared difference of the two
coordinates read at the depth. -/
theorem distTimesDist_coord (B : Int) (t p : List Int) (k : Nat) (ht : t ≠ []) (hp : p ≠ [])
    (hB : (2 * B) ^ 2 < 2 ^ 53) (hts : SmallCoords B t) (hps : SmallCoords B p) :
    distTimesDist (coord t k) (coord p k) = (coord t k - coord p k) ^ 2 := by
  obtain ⟨h0, h1, -⟩ :=
    small_diff B (coord t k) (coord p k) hB (hts _ (coord_mem t k ht)) (hps _ (coord_mem p k hp))
  exact distTimesDist_of_small _ _ (by omega) h1

/-- The steps of `nearestNeighbor` after the branches are chosen: the result is a node of
the tree; and on points of the target's length with small coordinates, when each recursive
result is nearest in its subtree and the far subtree lies beyond the splitting coordinate,
it is at least as close as the node and as every point of both subtrees. -/
theorem nearestNeighborRest_spec (l r : KDNode) (p t : List Int) (k : Nat) (ht : t ≠ [])
    (hne : (KDNode.node l p r).AllNonEmpty) (near far resN resF : KDNode)
    (hnear : ∀ n ∈ near.nodes, n ∈ (KDNode.node l p r).nodes)
    (hfar : ∀ n ∈ far.nodes, n ∈ (KDNode.node l p r).nodes)
    (hN : resN = .nullptr ∨ resN ∈ near.nodes)
    (hF : resF = .nullptr ∨ resF ∈ far.nodes) :
    ∃ res, nearestNeighborRest (.node l p r) ⟨t⟩ k (some resN) (some resF) = some res ∧
      res ∈ (KDNode.node l p r).nodes ∧
      (∀ B : Int, (t.length : Int) * (2 * B) ^ 2 < 2 ^ 53 → SmallCoords B t →
        (KDNode.node l p r).AllSmall B → far.AllSmall B →
        (KDNode.node l p r).AllLength t.length → far.AllLength t.length →
        (∀ q ∈ near.points, Closer t resN (KDNode.new q)) →
        (∀ q ∈ far.points, Closer t resF (KDNode.new q)) →
        (∀ q ∈ far.points, (coord t k - coord p k) ^ 2 ≤ (coord t k - coord q k) ^ 2) →
        Closer t res (.node l p r) ∧ (∀ q ∈ near.points, Closer t res (KDNode.new q)) ∧
          (∀ q ∈ far.points, Closer t res (KDNode.new q))) := by
  obtain ⟨hp, -, -⟩ := KDNode.allNonEmpty_node hne
  obtain ⟨best, hbest, hbor, hbN, hbroot⟩ := closest_spec resN (.node l p r) t ht
  obtain ⟨a', b', c', rfl, hle⟩ := hbroot l p r rfl
  have hbmem : KDNode.node a' b' c' ∈ (KDNode.node l p r).nodes := by
    rcases hbor with h | h
    · rcases hN with hN | hN
      · rw [hN] at h; cases h
      · rw [h]; exact hnear _ hN
    · rw [h]; exact KDNode.self_mem_nodes l r p
  have hb' : b' ∈ (KDNode.node l p r).points := by
    obtain ⟨x, y, z, hxyz, hy⟩ := KDNode.mem_nodes_point hbmem
    cases hxyz
    exact hy
  have hb'ne : b' ≠ [] := hne b' hb'
  simp only [nearestNeighborRest, Option.bind_eq_bind, Option.some_bind, hbest, KDNode.point?,
    distSquared_eq_loopDist t b' hb'ne, KDPoint.get_point_eq t k ht, KDNode.get_node_eq l r p k hp]
  by_cases htest : loopDist t b' ≥ distTimesDist (coord t k) (coord p k)
  · simp only [htest, if_true]
    obtain ⟨res, hres, hror, hrF, hrbest⟩ := closest_spec resF (.node a' b' c') t ht
    refine ⟨res, hres, ?_, ?_⟩
    · rcases hror with h | h
      · rcases hF with hF | hF
        · obtain ⟨_, _, _, h', _⟩ := hrbest a' b' c' rfl
          rw [h, hF] at h'; cases h'
        · rw [h]; exact hfar _ hF
      · rw [h]; exact hbmem
    · intro _ _ _ _ _ _ _ mN mF _
      refine ⟨hrbest.trans (fun a b c h => ?_), ?_, ?_⟩
      · cases h; exact ⟨a', b', c', rfl, hle⟩
      · intro q hq; exact hrbest.trans (hbN.trans (mN q hq))
      · intro q hq; exact hrF.trans (mF q hq)
  · simp only [htest, if_false]
    refine ⟨.node a' b' c', rfl, hbmem, ?_⟩
    intro B hB hts hroots hfars hlen hfarlen mN _ hbound
    refine ⟨fun a b c h => ?_, ?_, ?_⟩
    · cases h; exact ⟨a', b', c', rfl, hle⟩
    · intro q hq; exact hbN.trans (mN q hq)
    · intro q hq a b c h
      simp only [KDNode.new, KDNode.node.injEq] at h
      obtain ⟨-, rfl, -⟩ := h
      refine ⟨a', b', c', rfl, ?_⟩
      have hylen : b'.length = t.length := hlen b' hb'
      have hqlen : q.length = t.length := hfarlen q hq
      have hB1 := one_bound_of_length ht hB
      rw [loopDist_eq_sqDist B b' t hylen (hylen ▸ hB) (hroots b' hb') hts,
        loopDist_eq_sqDist B q t hqlen (hqlen ▸ hB) (hfars q hq) hts,
        sqDist_comm b' t hylen, sqDist_comm q t hqlen]
      rw [loopDist_eq_sqDist B t b' hylen.symm hB hts (hroots b' hb'),
        distTimesDist_coord B t p k ht hp hB1 hts (hroots p (by simp [KDNode.points]))] at htest
      have h1 := hbound q hq
      have h2 := sq_coord_le_sqDist t q k hqlen.symm ht
      omega

theorem KDNode.allSmall_node {B : Int} {l r : KDNode} {q : List Int}
    (h : (KDNode.node l q r).AllSmall B) : SmallCoords B q ∧ l.AllSmall B ∧ r.AllSmall B := by
  refine ⟨h q (by simp [KDNode.points]), ?_, ?_⟩
  · intro x hx; exact h x (by simp [KDNode.points, hx])
  · intro x hx; exact h x (by simp [KDNode.points, hx])

/-- The private `nearestNeighbor` returns on every tree of points with coordinates: null on
the null pointer, a node of the tree otherwise; on a tree of points of the target's length
with small coordinates that satisfies the splitting invariant, the node is at least as close
as every stored point. -/
theorem nearestNeighbor_spec (t : List Int) (ht : t ≠ []) (root : KDNode) (k : Nat)
    (hne : root.AllNonEmpty) :
    ∃ res, nearestNeighbor root ⟨t⟩ k = some res ∧
      (root = .nullptr → res = .nullptr) ∧ (root ≠ .nullptr → res ∈ root.nodes) ∧
      (∀ B : Int, (t.length : Int) * (2 * B) ^ 2 < 2 ^ 53 → SmallCoords B t →
        root.AllSmall B → root.AllLength t.length → root.Split k →
        ∀ q ∈ root.points, Closer t res (KDNode.new q)) := by
  induction root generalizing k with
  | nullptr =>
    exact ⟨.nullptr, rfl, fun _ => rfl, fun h => absurd rfl h,
      fun _ _ _ _ _ _ q hq => by simp [KDNode.points] at hq⟩
  | node l p r ihl ihr =>
    obtain ⟨hp, hl, hr⟩ := KDNode.allNonEmpty_node hne
    obtain ⟨resL, hresL, hLnull, hLmem, hLmet⟩ := ihl (k + 1) hl
    obtain ⟨resR, hresR, hRnull, hRmem, hRmet⟩ := ihr (k + 1) hr
    have hLor : resL = .nullptr ∨ resL ∈ l.nodes := by
      by_cases h : l = .nullptr
      · exact Or.inl (hLnull h)
      · exact Or.inr (hLmem h)
    have hRor : resR = .nullptr ∨ resR ∈ r.nodes := by
      by_cases h : r = .nullptr
      · exact Or.inl (hRnull h)
      · exact Or.inr (hRmem h)
    have hlsub : ∀ n ∈ l.nodes, n ∈ (KDNode.node l p r).nodes := by
      intro n hn; simp [KDNode.nodes, hn]
    have hrsub : ∀ n ∈ r.nodes, n ∈ (KDNode.node l p r).nodes := by
      intro n hn; simp [KDNode.nodes, hn]
    rw [nearestNeighbor]
    simp only [Option.bind_eq_bind, Option.some_bind, KDPoint.get_point_eq t k ht,
      KDNode.get_node_eq l r p k hp, hresL, hresR]
    by_cases hcmp : coord t k < coord p k
    · simp only [hcmp, if_true]
      obtain ⟨res, hres, hmem, hmet⟩ :=
        nearestNeighborRest_spec l r p t k ht hne l r resL resR hlsub hrsub hLor hRor
      refine ⟨res, hres, fun h => KDNode.noConfusion h, fun _ => hmem, ?_⟩
      intro B hB hts hsmall hlen hsplit q hq
      obtain ⟨-, hllen, hrlen⟩ := KDNode.allLength_node hlen
      obtain ⟨-, hlsm, hrsm⟩ := KDNode.allSmall_node hsmall
      simp only [KDNode.Split] at hsplit
      obtain ⟨h1, h2, h3⟩ := hmet B hB hts hsmall hrsm hlen hrlen
        (hLmet B hB hts hlsm hllen hsplit.2.2.1) (hRmet B hB hts hrsm hrlen hsplit.2.2.2)
        (fun q hq => by have := hsplit.2.1 q hq; nlinarith)
      simp only [KDNode.points, List.mem_cons, List.mem_append] at hq
      rcases hq with rfl | hq | hq
      · intro a b c h
        simp only [KDNode.new, KDNode.node.injEq] at h
        obtain ⟨-, rfl, -⟩ := h
        exact h1 l q r rfl
      · exact h2 q hq
      · exact h3 q hq
    · simp only [hcmp, if_false]
      obtain ⟨res, hres, hmem, hmet⟩ :=
        nearestNeighborRest_spec l r p t k ht hne r l resR resL hrsub hlsub hRor hLor
      refine ⟨res, hres, fun h => KDNode.noConfusion h, fun _ => hmem, ?_⟩
      intro B hB hts hsmall hlen hsplit q hq
      obtain ⟨-, hllen, hrlen⟩ := KDNode.allLength_node hlen
      obtain ⟨-, hlsm, hrsm⟩ := KDNode.allSmall_node hsmall
      simp only [KDNode.Split] at hsplit
      obtain ⟨h1, h2, h3⟩ := hmet B hB hts hsmall hlsm hlen hllen
        (hRmet B hB hts hrsm hrlen hsplit.2.2.2) (hLmet B hB hts hlsm hllen hsplit.2.2.1)
        (fun q hq => by have := hsplit.1 q hq; nlinarith)
      simp only [KDNode.points, List.mem_cons, List.mem_append] at hq
      rcases hq with rfl | hq | hq
      · intro a b c h
        simp only [KDNode.new, KDNode.node.injEq] at h
        obtain ⟨-, rfl, -⟩ := h
        exact h1 l q r rfl
      · exact h3 q hq
      · exact h2 q hq

theorem closest_some (n0 n1 res : KDNode) (target : KDPoint)
    (h : closest n0 n1 target = some res) :
    (res = n0 ∨ res = n1) ∧ (n1 ≠ .nullptr → res ≠ .nullptr) := by
  cases n0 with
  | nullptr =>
    simp only [closest, Option.some.injEq] at h
    subst h
    exact ⟨Or.inr rfl, id⟩
  | node a q0 c =>
    cases n1 with
    | nullptr =>
      simp only [closest, Option.some.injEq] at h
      subst h
      exact ⟨Or.inl rfl, fun _ => by simp⟩
    | node a' q1 c' =>
      simp only [closest, Option.bind_eq_bind, Option.bind_eq_some] at h
      obtain ⟨d1, -, d2, -, hres⟩ := h
      split_ifs at hres
      · cases hres; exact ⟨Or.inl rfl, fun _ => by simp⟩
      · cases hres; exact ⟨Or.inr rfl, fun _ => by simp⟩

/-- Whatever the lengths of the points, a result of the steps after the branch choice is
the node itself or the result of one of the two recursive calls, and is not null. -/
theorem nearestNeighborRest_some (l r : KDNode) (p : List Int) (target : KDPoint) (k : Nat)
    (next other : Option KDNode) (res : KDNode)
    (h : nearestNeighborRest (.node l p r) target k next other = some res) :
    res ≠ .nullptr ∧ (res = .node l p r ∨ next = some res ∨ other = some res) := by
  simp only [nearestNeighborRest, Option.bind_eq_bind, Option.bind_eq_some] at h
  obtain ⟨temp, hnext, best, hbest, bp, -, rad, -, tv, -, rv, -, hif⟩ := h
  obtain ⟨hbor, hbnn⟩ := closest_some temp (.node l p r) best target hbest
  have hbn : best ≠ .nullptr := hbnn (by simp)
  have hbest' : best = .node l p r ∨ next = some best := by
    rcases hbor with h | h
    · exact Or.inr (by rw [hnext, h])
    · exact Or.inl h
  split_ifs at hif
  · simp only [Option.bind_eq_some] at hif
    obtain ⟨temp2, hother, hres⟩ := hif
    obtain ⟨hror, hrnn⟩ := closest_some temp2 best res target hres
    refine ⟨hrnn hbn, ?_⟩
    rcases hror with h | h
    · exact Or.inr (Or.inr (by rw [hother, h]))
    · rw [h]
      rcases hbest' with h' | h'
      · exact Or.inl h'
      · exact Or.inr (Or.inl h')
  · cases hif
    refine ⟨hbn, ?_⟩
    rcases hbest' with h' | h'
    · exact Or.inl h'
    · exact Or.inr (Or.inl h')

/-- Whatever the shape of the tree and the lengths of the points, a result of the private
`nearestNeighbor` is null on the null pointer and a node of the tree otherwise. -/
theorem nearestNeighbor_some (root : KDNode) (target : KDPoint) (k : Nat) (res : KDNode)
    (h : nearestNeighbor root target k = some res) :
    (root = .nullptr ∧ res = .nullptr) ∨ (res ≠ .nullptr ∧ res ∈ root.nodes) := by
  induction root generalizing k res with
  | nullptr =>
    simp only [nearestNeighbor, Option.some.injEq] at h
    exact Or.inl ⟨rfl, h.symm⟩
  | node l p r ihl ihr =>
    right
    rw [nearestNeighbor] at h
    simp only [Option.bind_eq_bind, Option.bind_eq_some] at h
    obtain ⟨tv, -, rv, -, hif⟩ := h
    have key : ∀ next other, nearestNeighborRest (.node l p r) target k next other = some res →
        (next = nearestNeighbor l target (k + 1) ∧ other = nearestNeighbor r target (k + 1)) ∨
        (next = nearestNeighbor r target (k + 1) ∧ other = nearestNeighbor l target (k + 1)) →
        res ≠ .nullptr ∧ res ∈ (KDNode.node l p r).nodes := by
      intro next other hrest hno
      obtain ⟨hnn, hor⟩ := nearestNeighborRest_some l r p target k next other res hrest
      refine ⟨hnn, ?_⟩
      have hL : nearestNeighbor l target (k + 1) = some res → res ∈ l.nodes := by
        intro hl
        rcases ihl (k + 1) res hl with ⟨-, h0⟩ | ⟨-, h1⟩
        · exact absurd h0 hnn
        · exact h1
      have hR : nearestNeighbor r target (k + 1) = some res → res ∈ r.nodes := by
        intro hr
        rcases ihr (k + 1) res hr with ⟨-, h0⟩ | ⟨-, h1⟩
        · exact absurd h0 hnn
        · exact h1
      simp only [KDNode.nodes, List.mem_cons, List.mem_append]
      rcases hor with h | h | h
      · exact Or.inl h
      · rcases hno with ⟨h1, -⟩ | ⟨h1, -⟩
        · exact Or.inr (Or.inl (hL (h1 ▸ h)))
        · exact Or.inr (Or.inr (hR (h1 ▸ h)))
      · rcases hno with ⟨-, h1⟩ | ⟨-, h1⟩
        · exact Or.inr (Or.inr (hR (h1 ▸ h)))
        · exact Or.inr (Or.inl (hL (h1 ▸ h)))
    split_ifs at hif
    · exact key _ _ hif (Or.inl ⟨rfl, rfl⟩)
    · exact key _ _ hif (Or.inr ⟨rfl, rfl⟩)

/-! ## The tree -/

theorem KDTree.add_root_nullptr (t : KDTree) (n : KDNode) (h : t.root = .nullptr) :
    t.add n = some { t with root := n } := by
  simp [KDTree.add, h, KDNode.isNull]

theorem KDTree.add_root_node (t : KDTree) (n : KDNode) (h : t.root ≠ .nullptr) :
    t.add n = (EDAA.add t.root n 0).map (fun root' => { t with root := root' }) := by
  have hn : t.root.isNull = false := by
    cases ht : t.root with
    | nullptr => exact absurd ht h
    | node _ _ _ => rfl
  simp only [KDTree.add, hn, Bool.false_eq_true, if_false, Option.bind_eq_bind]
  cases EDAA.add t.root n 0 <;> rfl

/-- The public `add` of a point with a coordinate returns on a tree of points with
coordinates: the tree it leaves has a root, holds the old points and the new one, and keeps
the splitting invariant and the recorded `numDims`. -/
theorem KDTree.add_returns (t : KDTree) (p : List Int) (hp : p ≠ []) (hne : t.root.AllNonEmpty) :
    ∃ t', t.add (KDNode.new p) = some t' ∧ t'.numDims = t.numDims ∧ t'.root ≠ .nullptr ∧
      t'.root.points.Perm (p :: t.root.points) ∧ t'.root.count = t.root.count + 1 ∧
      (t.root.Split 0 → t'.root.Split 0) := by
  by_cases h : t.root = .nullptr
  · refine ⟨{ t with root := KDNode.new p }, KDTree.add_root_nullptr t _ h, rfl, ?_, ?_, ?_, ?_⟩
    · simp [KDNode.new]
    · simp [h, KDNode.new, KDNode.points]
    · simp [h, KDNode.new, KDNode.count]
    · intro _; simp [KDNode.new, KDNode.Split, KDNode.points]
  · obtain ⟨root', hadd, hnn, hperm, hcount, hsplit⟩ := EDAA.add_spec p hp t.root 0 h hne
    exact ⟨{ t with root := root' }, by rw [KDTree.add_root_node t _ h, hadd]; rfl, rfl, hnn,
      hperm, hcount, hsplit⟩

theorem KDNode.AllNonEmpty.of_perm {n n' : KDNode} {p : List Int} (hp : p ≠ [])
    (h : n.AllNonEmpty) (hperm : n'.points.Perm (p :: n.points)) : n'.AllNonEmpty := by
  intro x hx
  rcases List.mem_cons.mp (hperm.mem_iff.mp hx) with rfl | hx'
  · exact hp
  · exact h x hx'

/-- Adding points with a coordinate one by one returns: the tree holds the old points and
the new ones and keeps the splitting invariant. -/
theorem KDTree.addAll_spec (ps : List (List Int)) (hps : ∀ p ∈ ps, p ≠ []) (t : KDTree)
    (hne : t.root.AllNonEmpty) :
    ∃ t', t.addAll ps = some t' ∧ t'.numDims = t.numDims ∧
      t'.root.points.Perm (ps ++ t.root.points) ∧
      (ps ≠ [] → t'.root ≠ .nullptr) ∧ (t.root.Split 0 → t'.root.Split 0) := by
  induction ps generalizing t with
  | nil => exact ⟨t, rfl, rfl, List.Perm.refl _, fun h => absurd rfl h, id⟩
  | cons p rest ih =>
    have hp : p ≠ [] := hps p (by simp)
    obtain ⟨t1, hadd, hd1, hnn1, hperm1, -, hsplit1⟩ := KDTree.add_returns t p hp hne
    have hne1 : t1.root.AllNonEmpty := hne.of_perm hp hperm1
    obtain ⟨t2, hall, hd2, hperm2, -, hsplit2⟩ :=
      ih (fun q hq => hps q (by simp [hq])) t1 hne1
    refine ⟨t2, ?_, hd2.trans hd1, ?_, ?_, fun h => hsplit2 (hsplit1 h)⟩
    · simp only [KDTree.addAll, List.foldlM_cons, hadd, Option.bind_eq_bind, Option.some_bind]
      exact hall
    · have h1 : (rest ++ t1.root.points).Perm (rest ++ (p :: t.root.points)) :=
        List.Perm.append_left _ hperm1
      have h2 : (rest ++ (p :: t.root.points)).Perm (p :: (rest ++ t.root.points)) :=
        List.perm_middle
      exact hperm2.trans (h1.trans h2)
    · intro _ h0
      have hmem : p ∈ t2.root.points :=
        hperm2.mem_iff.mpr (List.mem_append_right _ (hperm1.mem_iff.mpr (by simp)))
      rw [h0] at hmem
      simp [KDNode.points] at hmem

/-- A tree built from the empty tree by adding points of length `D ≥ 1`: the insertions
return, and the tree has a root, holds exactly the added points, all of length `D`, and
satisfies the splitting invariant. -/
theorem KDTree.built_spec (D : Nat) (hD : 1 ≤ D) (d : Int) (ps : List (List Int))
    (hps : ps ≠ []) (hlen : ∀ p ∈ ps, p.length = D) :
    ∃ t, (KDTree.new d).addAll ps = some t ∧ t.root ≠ .nullptr ∧ t.root.points.Perm ps ∧
      t.root.AllLength D ∧ t.root.Split 0 := by
  have hne : ∀ p ∈ ps, p ≠ [] := by
    intro p hp h0
    have := hlen p hp
    rw [h0] at this
    simp at this
    omega
  obtain ⟨t, hall, -, hperm, hroot, hsplit⟩ :=
    KDTree.addAll_spec ps hne (KDTree.new d) (by intro x hx; simp [KDTree.new, KDNode.points] at hx)
  have hperm' : t.root.points.Perm ps := by
    simpa [KDTree.new, KDNode.points] using hperm
  refine ⟨t, hall, hroot hps, hperm', ?_, hsplit (by simp [KDTree.new, KDNode.Split])⟩
  intro x hx
  exact hlen x (hperm'.mem_iff.mp hx)

/-- On a tree of points of length `D ≥ 1` with small coordinates that has a root and
satisfies the splitting invariant, the public `nearestNeighbor` of a target of length `D`
with small coordinates returns a node of the tree whose point is at minimum exact squared
distance among the stored points. -/
theorem KDTree.nearestNeighbor_min (D : Nat) (hD : 1 ≤ D) (B : Int)
    (hB : (D : Int) * (2 * B) ^ 2 < 2 ^ 53) (t : KDTree) (target : List Int)
    (ht : target.length = D) (hts : SmallCoords B target) (hroot : t.root ≠ .nullptr)
    (hlen : t.root.AllLength D) (hsmall : t.root.AllSmall B) (hsplit : t.root.Split 0) :
    ∃ l b r, t.nearestNeighbor ⟨target⟩ = some (.node l b r) ∧
      KDNode.node l b r ∈ t.root.nodes ∧ b ∈ t.root.points ∧ b.length = D ∧
      ∀ q ∈ t.root.points, sqDist target b ≤ sqDist target q := by
  have htne : target ≠ [] := by
    intro h0; rw [h0] at ht; simp at ht; omega
  obtain ⟨res, hres, -, hmem, hmet⟩ :=
    nearestNeighbor_spec target htne t.root 0 (hlen.allNonEmpty hD)
  obtain ⟨l, b, r, rfl, hb⟩ := KDNode.mem_nodes_point (hmem hroot)
  have hbl : b.length = D := hlen b hb
  refine ⟨l, b, r, hres, hmem hroot, hb, hbl, ?_⟩
  intro q hq
  obtain ⟨a', b', c', he, hle⟩ :=
    hmet B (ht ▸ hB) hts hsmall (ht ▸ hlen) hsplit q hq KDNode.nullptr q KDNode.nullptr rfl
  cases he
  have hql : q.length = D := hlen q hq
  rw [loopDist_eq_sqDist B b target (hbl.trans ht.symm) (hbl ▸ hB) (hsmall b hb) hts,
    loopDist_eq_sqDist B q target (hql.trans ht.symm) (hql ▸ hB) (hsmall q hq) hts,
    sqDist_comm b target (hbl.trans ht.symm), sqDist_comm q target (hql.trans ht.symm)] at hle
  exact hle

theorem exampleRoot_built :
    (KDTree.new 2).addAll examplePoints = some { root := exampleRoot, numDims := 2 } := by
  decide

/-- A result of the private `add` is the node it was called on, with the same point. -/
theorem add_some_node (root n root' : KDNode) (k : Nat) (h : add root n k = some root') :
    ∃ l q r l' r', root = .node l q r ∧ root' = .node l' q r' := by
  cases root with
  | nullptr => simp [add] at h
  | node l q r =>
    rw [add] at h
    simp only [Option.bind_eq_bind, Option.bind_eq_some] at h
    obtain ⟨a, -, b, -, hif⟩ := h
    split_ifs at hif
    · cases hif; exact ⟨l, q, r, n, r, rfl, rfl⟩
    · simp only [Option.bind_eq_some] at hif
      obtain ⟨l', -, hl'⟩ := hif
      cases hl'; exact ⟨l, q, r, l', r, rfl, rfl⟩
    · cases hif; exact ⟨l, q, r, l, n, rfl, rfl⟩
    · simp only [Option.bind_eq_some] at hif
      obtain ⟨r', -, hr'⟩ := hif
      cases hr'; exact ⟨l, q, r, l, r', rfl, rfl⟩

/-- The loop of the list constructor and the loop of public `add` calls leave the same
root. -/
theorem foldlM_add_root (rest : List (List Int)) (root : KDNode) (hroot : root ≠ .nullptr)
    (d : Int) :
    (rest.foldlM (fun (t : KDTree) p => t.add (KDNode.new p)) (KDTree.mk root d)).map KDTree.root
      = rest.foldlM (fun root p => add root (KDNode.new p) 0) root := by
  induction rest generalizing root with
  | nil => rfl
  | cons p rest ih =>
    simp only [List.foldlM_cons, Option.bind_eq_bind]
    rw [KDTree.add_root_node (KDTree.mk root d) (KDNode.new p) hroot]
    cases hadd : add root (KDNode.new p) 0 with
    | none => rfl
    | some root' =>
      obtain ⟨_, _, _, l', r', -, hr'⟩ := add_some_node root _ root' 0 hadd
      simp only [Option.map_some', Option.some_bind]
      exact ih root' (by rw [hr']; simp)

/-- The loop of the list constructor keeps the point of the root. -/
theorem foldlM_add_point (rest : List (List Int)) (root root' : KDNode)
    (h : rest.foldlM (fun root p => add root (KDNode.new p) 0) root = some root') :
    root'.point? = root.point? := by
  induction rest generalizing root with
  | nil =>
    simp only [List.foldlM_nil] at h
    cases h; rfl
  | cons p rest ih =>
    simp only [List.foldlM_cons, Option.bind_eq_bind, Option.bind_eq_some] at h
    obtain ⟨root1, hadd, hrest⟩ := h
    obtain ⟨l, q, r, l', r', h0, h1⟩ := add_some_node root _ root1 0 hadd
    rw [ih root1 hrest, h0, h1]
    rfl

/-- The scan keeps a point of the sequence that no point of the sequence beats. -/
theorem scan_foldl_spec (target : List Int) (rest : List (List Int)) (p : List Int) :
    (rest.foldl (fun best q => if sqDist target q < sqDist target best then q else best) p
        ∈ p :: rest) ∧
    ∀ q ∈ p :: rest,
      sqDist target
        (rest.foldl (fun best q => if sqDist target q < sqDist target best then q else best) p)
        ≤ sqDist target q := by
  induction rest generalizing p with
  | nil => simp
  | cons x rest ih =>
    simp only [List.foldl_cons]
    by_cases hx : sqDist target x < sqDist target p
    · simp only [hx, if_true]
      obtain ⟨h1, h2⟩ := ih x
      refine ⟨List.mem_cons_of_mem _ h1, ?_⟩
      intro q hq
      rcases List.mem_cons.mp hq with rfl | hq'
      · exact le_trans (h2 x (by simp)) (le_of_lt hx)
      · exact h2 q hq'
    · simp only [hx, if_false]
      obtain ⟨h1, h2⟩ := ih p
      refine ⟨?_, ?_⟩
      · rcases List.mem_cons.mp h1 with h | h
        · rw [h]; simp
        · exact List.mem_cons_of_mem _ (List.mem_cons_of_mem _ h)
      · intro q hq
        rcases List.mem_cons.mp hq with rfl | hq'
        · exact h2 q (by simp)
        · rcases List.mem_cons.mp hq' with rfl | hq''
          · exact le_trans (h2 p (by simp)) (not_lt.mp hx)
          · exact h2 q (List.mem_cons_of_mem _ hq'')

theorem scanNearest_spec (target : List Int) (ps : List (List Int)) (hps : ps ≠ []) :
    ∃ s, scanNearest target ps = some s ∧ s ∈ ps ∧
      ∀ q ∈ ps, sqDist target s ≤ sqDist target q := by
  cases ps with
  | nil => exact absurd rfl hps
  | cons p rest =>
    obtain ⟨h1, h2⟩ := scan_foldl_spec target rest p
    exact ⟨_, rfl, h1, h2⟩

/-! ## The claims -/

/-- Brute-force equivalence on small coordinates: for every `D ≥ 1` and every bound `B`
with `D * (2 * B) ^ 2 < 2 ^ 53`, every non-empty sequence `ps` of points of length `D` and
every target of length `D`, all with coordinates between `-B` and `B`, the insertions return
a tree on which `nearestNeighbor(target)` returns a node; `distSquared` of the target and
the node's point is the exact squared distance, the point is one of `ps`, and no point of
`ps` is closer. -/
theorem nearestNeighbor_min_of_small (D : Nat) (hD : 1 ≤ D) (B : Int)
    (hB : (D : Int) * (2 * B) ^ 2 < 2 ^ 53) (d : Int) (ps : List (List Int))
    (hps : ps ≠ []) (hlen : ∀ p ∈ ps, p.length = D) (hsmall : ∀ p ∈ ps, SmallCoords B p)
    (target : List Int) (ht : target.length = D) (hts : SmallCoords B target) :
    ∃ t l b r, (KDTree.new d).addAll ps = some t ∧
      t.nearestNeighbor ⟨target⟩ = some (.node l b r) ∧
      distSquared ⟨target⟩ ⟨b⟩ = some (sqDist target b) ∧
      b ∈ ps ∧ ∀ p ∈ ps, sqDist target b ≤ sqDist target p := by
  obtain ⟨t, hall, hroot, hperm, hlen', hsplit⟩ := KDTree.built_spec D hD d ps hps hlen
  have hsm : t.root.AllSmall B := fun x hx => hsmall x (hperm.mem_iff.mp hx)
  obtain ⟨l, b, r, hnn, -, hb, hbl, hmin⟩ :=
    KDTree.nearestNeighbor_min D hD B hB t target ht hts hroot hlen' hsm hsplit
  have hbne : b ≠ [] := by
    intro h0; rw [h0] at hbl; simp at hbl; omega
  exact ⟨t, l, b, r, hall, hnn,
    distSquared_eq_sqDist B target b (ht.trans hbl.symm) hbne (ht ▸ hB) hts (hsm b hb),
    hperm.mem_iff.mp hb, fun p hp => hmin p (hperm.mem_iff.mpr hp)⟩

/-- C1 at the points `(94906267, 1)`, `(94906267, 0)` inserted in that order and the target
`(0, 0)`: `distSquared` of the target and the root is `9007199515875288`, rounded down from
`9007199515875290`, and is below `dist * dist = 9007199515875289` at the root, so the right
child is not visited and `nearestNeighbor` returns the root `(94906267, 1)`, although the
inserted point `(94906267, 0)` is at the smaller squared distance `9007199515875289`. -/
theorem nearestNeighbor_misses_minimum :
    (KDTree.new 2).addAll roundingPoints = some (KDTree.mk roundingRoot 2) ∧
    distSquared ⟨[0, 0]⟩ ⟨[94906267, 1]⟩ = some 9007199515875288 ∧
    distTimesDist 0 94906267 = 9007199515875289 ∧
    (KDTree.mk roundingRoot 2).nearestNeighbor ⟨[0, 0]⟩
      = some (.node .nullptr [94906267, 1] (KDNode.new [94906267, 0])) ∧
    [94906267, 0] ∈ roundingPoints ∧
    sqDist [0, 0] [94906267, 0] = 9007199515875289 ∧
    sqDist [0, 0] [94906267, 1] = 9007199515875290 := by
  decide

/-- C2 (the result is a stored node): on every tree with a root, whatever its shape, and for
every target, a result of `nearestNeighbor(target)` is one of the nodes reachable from the
root; and when every stored point and the target have at least one coordinate, so that every
`get` is defined, `nearestNeighbor(target)` does return such a node. -/
theorem nearestNeighbor_returns_stored_node (t : KDTree) (target : KDPoint)
    (hroot : t.root ≠ .nullptr) :
    (∀ res, t.nearestNeighbor target = some res → res ∈ t.root.nodes) ∧
    (t.root.AllNonEmpty → target.props ≠ [] →
      ∃ res, t.nearestNeighbor target = some res ∧ res ∈ t.root.nodes) := by
  constructor
  · intro res hres
    rcases nearestNeighbor_some t.root target 0 res hres with ⟨h0, -⟩ | ⟨-, h1⟩
    · exact absurd h0 hroot
    · exact h1
  · intro hne ht
    obtain ⟨res, hres, -, hmem, -⟩ := nearestNeighbor_spec target.props ht t.root 0 hne
    exact ⟨res, hres, hmem hroot⟩

/-- Witness of C2 on the tree of the example, which the target `(40, 40)` sends to one of its
nodes. -/
theorem nearestNeighbor_returns_stored_node_witness :
    exampleRoot ≠ .nullptr ∧ exampleRoot.AllNonEmpty ∧
    ∃ res, (KDTree.mk exampleRoot 2).nearestNeighbor ⟨[40, 40]⟩ = some res ∧
      res ∈ exampleRoot.nodes :=
  ⟨by decide, by decide,
    (nearestNeighbor_returns_stored_node (KDTree.mk exampleRoot 2) ⟨[40, 40]⟩ (by decide)).2
      (by decide) (by decide)⟩

/-- C3 (null exactly on the empty tree): on a tree without root `nearestNeighbor` returns
the null pointer for every target; on a tree with a root it never returns the null pointer,
and it does return a node whenever every stored point and the target have at least one
coordinate. -/
theorem nearestNeighbor_null_iff_no_root (t : KDTree) (target : KDPoint) :
    (t.root = .nullptr → t.nearestNeighbor target = some .nullptr) ∧
    (t.root ≠ .nullptr → t.nearestNeighbor target ≠ some .nullptr) ∧
    (t.root ≠ .nullptr → t.root.AllNonEmpty → target.props ≠ [] →
      ∃ l p r, t.nearestNeighbor target = some (.node l p r)) := by
  refine ⟨?_, ?_, ?_⟩
  · intro h
    simp [KDTree.nearestNeighbor, h, nearestNeighbor]
  · intro hroot hres
    rcases nearestNeighbor_some t.root target 0 .nullptr hres with ⟨h0, -⟩ | ⟨h1, -⟩
    · exact hroot h0
    · exact h1 rfl
  · intro hroot hne ht
    obtain ⟨res, hres, -, hmem, -⟩ := nearestNeighbor_spec target.props ht t.root 0 hne
    obtain ⟨l, p, r, rfl, -⟩ := KDNode.mem_nodes_point (hmem hroot)
    exact ⟨l, p, r, hres⟩

/-- Witness of C3: the empty tree answers null to a target without coordinates, and the tree
of the example answers with a node. -/
theorem nearestNeighbor_null_iff_no_root_witness :
    (KDTree.new 2).nearestNeighbor ⟨[]⟩ = some .nullptr ∧
    ∃ l p r, (KDTree.mk exampleRoot 2).nearestNeighbor ⟨[40, 40]⟩ = some (.node l p r) :=
  ⟨(nearestNeighbor_null_iff_no_root (KDTree.new 2) ⟨[]⟩).1 rfl,
    (nearestNeighbor_null_iff_no_root (KDTree.mk exampleRoot 2) ⟨[40, 40]⟩).2.2 (by decide)
      (by decide) (by decide)⟩

/-- C4 at the points `(0, 0, 0)`, `(M, M, M)` with `M = 2147483647` inserted in that order and
the query `(0, 0, 0)`, an inserted point: the three squares of `M` add up, in `double`, to a
value above the range of `long`, so `distSquared((M, M, M), (0, 0, 0))` is `LONG_MIN`, below
the distance 0 of the root; `closest` prefers `(M, M, M)` and `nearestNeighbor` returns the
node holding it, whose coordinates are not those of the query. -/
theorem nearestNeighbor_round_trip_fails :
    [0, 0, 0] ∈ overflowPoints ∧
    (KDTree.new 3).addAll overflowPoints
      = some (KDTree.mk (.node .nullptr [0, 0, 0]
          (KDNode.new [2147483647, 2147483647, 2147483647])) 3) ∧
    distSquared ⟨[2147483647, 2147483647, 2147483647]⟩ ⟨[0, 0, 0]⟩
      = some (-9223372036854775808) ∧
    distSquared ⟨[0, 0, 0]⟩ ⟨[0, 0, 0]⟩ = some 0 ∧
    (KDTree.mk (.node .nullptr [0, 0, 0]
        (KDNode.new [2147483647, 2147483647, 2147483647])) 3).nearestNeighbor ⟨[0, 0, 0]⟩
      = some (KDNode.new [2147483647, 2147483647, 2147483647]) := by
  decide

/-- C5 (insertion routing, ties to the right): when `add` inserts the point `p` below a node
holding `q` reached at depth `k`, with `a = p.get(k)` and `b = q.get(k)`: if `a < b` the point
and the right subtree of the node are unchanged and `p` becomes the left child when there is
none, and is otherwise inserted at depth `k + 1` into the left subtree; if `b ≤ a`, equality
included, the point and the left subtree are unchanged and `p` becomes the right child or is
inserted at depth `k + 1` into the right subtree.  The public `add` starts at depth 0. -/
theorem add_routing (l r : KDNode) (q p : List Int) (k : Nat) (a b : Int)
    (ha : (KDNode.new p).get k = some a) (hb : (KDNode.node l q r).get k = some b) :
    (a < b → add (.node l q r) (KDNode.new p) k =
      if l = .nullptr then some (.node (KDNode.new p) q r)
      else (add l (KDNode.new p) (k + 1)).map (fun l' => .node l' q r)) ∧
    (b ≤ a → add (.node l q r) (KDNode.new p) k =
      if r = .nullptr then some (.node l q (KDNode.new p))
      else (add r (KDNode.new p) (k + 1)).map (fun r' => .node l q r')) ∧
    (∀ numDims, (KDTree.mk (.node l q r) numDims).add (KDNode.new p) =
      (add (.node l q r) (KDNode.new p) 0).map (fun root' => KDTree.mk root' numDims)) := by
  refine ⟨?_, ?_, ?_⟩
  · intro hlt
    rw [add_node_eq l r (KDNode.new p) q k a b ha hb, if_pos hlt]
  · intro hle
    rw [add_node_eq l r (KDNode.new p) q k a b ha hb, if_neg (not_lt.mpr hle)]
  · intro numDims
    exact KDTree.add_root_node (KDTree.mk (.node l q r) numDims) (KDNode.new p) (by simp)

/-- Witness of C5: `(50, 38)` reaches the root `(50, 50)` of the example at depth 0 with equal
coordinates and is sent into the right subtree. -/
theorem add_routing_witness :
    ((KDNode.new [50, 38]).get 0 = some 50 ∧ exampleRoot.get 0 = some 50) ∧
    add exampleRoot (KDNode.new [50, 38]) 0 =
      (add (.node (KDNode.new [51, 38]) [80, 40] .nullptr) (KDNode.new [50, 38]) 1).map
        (fun r' => .node (.node (KDNode.new [48, 38]) [10, 60] .nullptr) [50, 50] r') :=
  ⟨⟨by decide, by decide⟩,
    ((add_routing (.node (KDNode.new [48, 38]) [10, 60] .nullptr)
      (.node (KDNode.new [51, 38]) [80, 40] .nullptr) [50, 50] [50, 38] 0 50 50
      (by decide) (by decide)).2.1 (le_refl _)).trans (if_neg (by decide))⟩

/-- C6 (insertion is append-only): for every tree of points with a coordinate and every
point `p` with a coordinate, `add(p)` returns; there is a position that was empty before and
holds a childless node with `p` after, the point at every other position is unchanged, the
stored points after are the stored points before plus `p` (as multisets), and the number of
nodes grows by exactly one. -/
theorem add_append_only (t : KDTree) (p : List Int) (hp : p ≠ []) (hne : t.root.AllNonEmpty) :
    ∃ t' path, t.add (KDNode.new p) = some t' ∧
      t.root.follow path = .nullptr ∧ t'.root.follow path = KDNode.new p ∧
      (∀ path', path' ≠ path →
        (t'.root.follow path').point? = (t.root.follow path').point?) ∧
      t'.root.points.Perm (p :: t.root.points) ∧ t'.root.count = t.root.count + 1 := by
  by_cases h : t.root = .nullptr
  · refine ⟨{ t with root := KDNode.new p }, [], KDTree.add_root_nullptr t _ h, ?_, rfl, ?_, ?_, ?_⟩
    · simp [h, KDNode.follow]
    · intro path' hpath
      cases path' with
      | nil => exact absurd rfl hpath
      | cons b rest => simp [h, KDNode.follow_new_cons, KDNode.follow_nullptr]
    · simp [h, KDNode.new, KDNode.points]
    · simp [h, KDNode.new, KDNode.count]
  · obtain ⟨root', hadd, -, hperm, hcount, -⟩ := add_spec p hp t.root 0 h hne
    obtain ⟨root'', path, hadd', h0, h1, hrest⟩ := add_follow p hp t.root 0 h hne
    rw [hadd] at hadd'
    cases hadd'
    exact ⟨{ t with root := root' }, path, by rw [KDTree.add_root_node t _ h, hadd]; rfl,
      h0, h1, hrest, hperm, hcount⟩

/-- Witness of C6 on the tree of the example and the point `(50, 38)`. -/
theorem add_append_only_witness :
    ([(50 : Int), 38] ≠ [] ∧ exampleRoot.AllNonEmpty) ∧
    ∃ t' path, (KDTree.mk exampleRoot 2).add (KDNode.new [50, 38]) = some t' ∧
      exampleRoot.follow path = .nullptr ∧ t'.root.follow path = KDNode.new [50, 38] ∧
      (∀ path', path' ≠ path →
        (t'.root.follow path').point? = (exampleRoot.follow path').point?) ∧
      t'.root.points.Perm ([50, 38] :: exampleRoot.points) ∧
      t'.root.count = exampleRoot.count + 1 :=
  ⟨⟨by decide, by decide⟩,
    add_append_only (KDTree.mk exampleRoot 2) [50, 38] (by decide) (by decide)⟩

/-- C7 (seeded construction equals repeated insertion): for every non-empty list `ps`, the
list constructor and the insertion of `ps[0]`, `ps[1]`, ... in order into an empty tree have
the same outcome and leave the same root, hence the same point at every position; the root
of the constructed tree holds `ps[0]`; and the constructor returns when every point has a
coordinate. -/
theorem ofPoints_eq_addAll (ps : List (List Int)) (hps : ps ≠ []) (d : Int) :
    (KDTree.ofPoints ps).map KDTree.root = ((KDTree.new d).addAll ps).map KDTree.root ∧
    (∀ t, KDTree.ofPoints ps = some t → t.root.point? = ps.head?) ∧
    ((∀ p ∈ ps, p ≠ []) → ∃ t, KDTree.ofPoints ps = some t) := by
  cases ps with
  | nil => exact absurd rfl hps
  | cons p0 rest =>
    have heq : (KDTree.ofPoints (p0 :: rest)).map KDTree.root
        = ((KDTree.new d).addAll (p0 :: rest)).map KDTree.root := by
      have h1 : (KDTree.new d).addAll (p0 :: rest)
          = rest.foldlM (fun (t : KDTree) p => t.add (KDNode.new p))
              (KDTree.mk (KDNode.new p0) d) := by
        simp only [KDTree.addAll, List.foldlM_cons, Option.bind_eq_bind]
        rw [KDTree.add_root_nullptr (KDTree.new d) _ rfl]
        rfl
      rw [h1, foldlM_add_root rest (KDNode.new p0) (by simp [KDNode.new]) d]
      simp only [KDTree.ofPoints, Option.bind_eq_bind]
      cases rest.foldlM (fun root p => add root (KDNode.new p) 0) (KDNode.new p0) <;> rfl
    refine ⟨heq, ?_, ?_⟩
    · intro t ht
      simp only [KDTree.ofPoints, Option.bind_eq_bind, Option.bind_eq_some] at ht
      obtain ⟨root, hroot, hmk⟩ := ht
      cases hmk
      rw [foldlM_add_point rest (KDNode.new p0) root hroot]
      rfl
    · intro hne
      obtain ⟨t', hall, -⟩ := KDTree.addAll_spec (p0 :: rest) hne (KDTree.new d)
        (by intro x hx; simp [KDTree.new, KDNode.points] at hx)
      rw [hall] at heq
      cases hof : KDTree.ofPoints (p0 :: rest) with
      | none => rw [hof] at heq; cases heq
      | some t => exact ⟨t, rfl⟩

/-- Witness of C7 on the five points of the example. -/
theorem ofPoints_eq_addAll_witness :
    examplePoints ≠ [] ∧
    (KDTree.ofPoints examplePoints).map KDTree.root
      = ((KDTree.new 2).addAll examplePoints).map KDTree.root ∧
    ∃ t, KDTree.ofPoints examplePoints = some t :=
  ⟨by decide, (ofPoints_eq_addAll examplePoints (by decide) 2).1,
    (ofPoints_eq_addAll examplePoints (by decide) 2).2.2 (by decide)⟩

/-- Counterexample to C8 as stated: a tree of recorded dimensionality 2 that holds the
2-coordinate point `(50, 50)` accepts the 3-coordinate point `(80, 40, 2)`: `add` returns
and the point is stored as the right child of the root. -/
theorem add_dimension_mismatch_counterexample :
    (([80, 40, 2] : List Int).length : Int) ≠ (KDTree.mk (KDNode.new [50, 50]) 2).numDims ∧
    (KDTree.mk (KDNode.new [50, 50]) 2).add (KDNode.new [80, 40, 2])
      = some (KDTree.mk (.node .nullptr [50, 50] (KDNode.new [80, 40, 2])) 2) := by
  decide

/-- C8 as amended (no dimensionality check): for every tree, whatever its recorded
dimensionality, whose points have a coordinate, and every point with a coordinate, whatever
its length, `add` returns, the point is stored in the tree after the call and the recorded
dimensionality is unchanged. -/
theorem add_ignores_dimension (t : KDTree) (p : List Int) (hp : p ≠ [])
    (hne : t.root.AllNonEmpty) :
    ∃ t', t.add (KDNode.new p) = some t' ∧ p ∈ t'.root.points ∧
      t'.numDims = t.numDims := by
  obtain ⟨t', hadd, hd, -, hperm, -⟩ := KDTree.add_returns t p hp hne
  exact ⟨t', hadd, hperm.mem_iff.mpr (by simp), hd⟩

/-- Witness of C8 as amended: the empty tree of dimensionality 2 stores `(50, 50, 1)`. -/
theorem add_ignores_dimension_witness :
    ([(50 : Int), 50, 1] ≠ [] ∧ (KDTree.new 2).root.AllNonEmpty) ∧
    ∃ t', (KDTree.new 2).add (KDNode.new [50, 50, 1]) = some t' ∧
      [50, 50, 1] ∈ t'.root.points ∧ t'.numDims = (KDTree.new 2).numDims :=
  ⟨⟨by decide, by decide⟩, add_ignores_dimension (KDTree.new 2) [50, 50, 1] (by decide) (by decide)⟩

/-- Counterexample to C10 as stated: after the insertion of `(10, 0)`, `(8, 5)`, `(12, 5)`
in that order, the points `(8, 5)` and `(12, 5)` are both at the minimum squared distance 4
of the target `(10, 5)`; the scan in insertion order keeps `(8, 5)`, the earlier one, and
`nearestNeighbor` returns the node holding `(12, 5)`. -/
theorem nearestNeighbor_scan_counterexample :
    (∀ p ∈ tiePoints, p.length = 2) ∧
    sqDist [10, 5] [8, 5] = 4 ∧ sqDist [10, 5] [12, 5] = 4 ∧
    scanNearest [10, 5] tiePoints = some [8, 5] ∧
    ((KDTree.new 2).addAll tiePoints).bind (fun t => t.nearestNeighbor ⟨[10, 5]⟩)
      = some (KDNode.new [12, 5]) := by
  decide

/-- C10 as amended (agreement with the scan up to ties, on small coordinates): for every
`D ≥ 1` and every bound `B` with `D * (2 * B) ^ 2 < 2 ^ 53`, every non-empty sequence `ps`
of points of length `D` added in order to an empty tree and every target of length `D`, all
with coordinates between `-B` and `B`, `nearestNeighbor(target)` returns a node whose point
is at the same squared distance of the target as the point kept by the scan in insertion
order, and it is the same point whenever no other point value of `ps` is at that distance. -/
theorem nearestNeighbor_scan_same_distance (D : Nat) (hD : 1 ≤ D) (B : Int)
    (hB : (D : Int) * (2 * B) ^ 2 < 2 ^ 53) (d : Int)
    (ps : List (List Int)) (hps : ps ≠ []) (hlen : ∀ p ∈ ps, p.length = D)
    (hsmall : ∀ p ∈ ps, SmallCoords B p)
    (target : List Int) (ht : target.length = D) (hts : SmallCoords B target) :
    ∃ t l b r s, (KDTree.new d).addAll ps = some t ∧
      t.nearestNeighbor ⟨target⟩ = some (.node l b r) ∧ scanNearest target ps = some s ∧
      sqDist target b = sqDist target s ∧
      ((∀ p ∈ ps, sqDist target p = sqDist target s → p = s) → b = s) := by
  obtain ⟨t, hall, hroot, hperm, hlen', hsplit⟩ := KDTree.built_spec D hD d ps hps hlen
  have hsm : t.root.AllSmall B := fun x hx => hsmall x (hperm.mem_iff.mp hx)
  obtain ⟨l, b, r, hnn, -, hb, -, hmin⟩ :=
    KDTree.nearestNeighbor_min D hD B hB t target ht hts hroot hlen' hsm hsplit
  obtain ⟨s, hs, hsmem, hsmin⟩ := scanNearest_spec target ps hps
  have hbmem : b ∈ ps := hperm.mem_iff.mp hb
  have heq : sqDist target b = sqDist target s :=
    le_antisymm (hmin s (hperm.mem_iff.mpr hsmem)) (hsmin b hbmem)
  exact ⟨t, l, b, r, s, hall, hnn, hs, heq, fun huniq => huniq b hbmem heq⟩

/-- Witness of C10 as amended on the three points with a tie and the target `(10, 5)`, with
the bound `B = 1000`. -/
theorem nearestNeighbor_scan_same_distance_witness :
    (1 ≤ 2 ∧ ((2 : Nat) : Int) * (2 * 1000) ^ 2 < 2 ^ 53 ∧ tiePoints ≠ [] ∧
      (∀ p ∈ tiePoints, p.length = 2) ∧ (∀ p ∈ tiePoints, SmallCoords 1000 p) ∧
      [(10 : Int), 5].length = 2 ∧ SmallCoords 1000 [10, 5]) ∧
    ∃ t l b r s, (KDTree.new 2).addAll tiePoints = some t ∧
      t.nearestNeighbor ⟨[10, 5]⟩ = some (.node l b r) ∧
      scanNearest [10, 5] tiePoints = some s ∧
      sqDist [10, 5] b = sqDist [10, 5] s ∧
      ((∀ p ∈ tiePoints, sqDist [10, 5] p = sqDist [10, 5] s → p = s) → b = s) :=
  ⟨⟨by decide, by decide, by decide, by decide, by decide, by decide, by decide⟩,
    nearestNeighbor_scan_same_distance 2 (by decide) 1000 (by decide) 2 tiePoints (by decide)
      (by decide) (by decide) [10, 5] (by decide) (by decide)⟩

/-- C11 (cyclic coordinate access): for every point with `D ≥ 1` coordinates and every
depth, the index `depth mod D` is within bounds, and `get(depth)` of a node holding the point
and of a `KDPoint` holding it both return the coordinate at that index. -/
theorem get_cyclic (p : List Int) (hD : 1 ≤ p.length) (depth : Nat) (l r : KDNode) :
    ∃ h : depth % p.length < p.length,
      (KDNode.node l p r).get depth = some (p.get ⟨depth % p.length, h⟩) ∧
      KDPoint.get ⟨p⟩ depth = some (p.get ⟨depth % p.length, h⟩) := by
  have h : depth % p.length < p.length := Nat.mod_lt _ hD
  have hne : p.length ≠ 0 := by omega
  refine ⟨h, ?_, ?_⟩
  · simp only [KDNode.get, hne, if_false]
    rw [List.getElem?_eq_getElem h]; rfl
  · simp only [KDPoint.get, hne, if_false]
    rw [List.getElem?_eq_getElem h]; rfl

/-- Witness of C11: depth 7 in the 3-coordinate point `(48, 38, 5)` reads index 1. -/
theorem get_cyclic_witness :
    1 ≤ [(48 : Int), 38, 5].length ∧
    (KDNode.node .nullptr [48, 38, 5] .nullptr).get 7 = some 38 ∧
    KDPoint.get ⟨[48, 38, 5]⟩ 7 = some 38 :=
  ⟨by decide, (get_cyclic [48, 38, 5] (by decide) 7 .nullptr .nullptr).2⟩

theorem sqDist_eq_finset_sum (p q : List Int) :
    sqDist p q = Finset.sum (Finset.range p.length) (fun i => (p.getD i 0 - q.getD i 0) ^ 2) := by
  unfold sqDist
  generalize p.length = n
  induction n with
  | zero => simp
  | succ n ih =>
    rw [List.range_succ, List.map_append, List.sum_append, ih, Finset.sum_range_succ]
    simp

theorem distSquared_nil_nil : distSquared ⟨[]⟩ ⟨[]⟩ = some 0 := by
  decide

/-- The distance function on small coordinates: for every bound `B` and every two points of
the same length `D` with coordinates between `-B` and `B` and `D * (2 * B) ^ 2 < 2 ^ 53`,
`distSquared` returns the sum over the axes of the exact squares of the differences. -/
theorem distSquared_exact_of_small (B : Int) (p q : List Int) (h : p.length = q.length)
    (hB : (p.length : Int) * (2 * B) ^ 2 < 2 ^ 53) (hp : SmallCoords B p)
    (hq : SmallCoords B q) :
    distSquared ⟨p⟩ ⟨q⟩
      = some (Finset.sum (Finset.range p.length) (fun i => (p.getD i 0 - q.getD i 0) ^ 2)) := by
  rw [← sqDist_eq_finset_sum]
  by_cases hq0 : q = []
  · subst hq0
    have hp0 : p = [] := List.length_eq_zero.mp (by simpa using h)
    subst hp0
    rw [distSquared_nil_nil]; rfl
  · exact distSquared_eq_sqDist B p q h hq0 hB hp hq

/-- C12 at the points `(94906267, 1)` and `(0, 0)`: the exact sum of the squares is
`9007199515875290` and `distSquared` returns `9007199515875288`, the square of `94906267`
being rounded by `std::pow` and the addition of 1 being lost in `double`; and at
`(M, M, M)` with `M = 2147483647` and `(0, 0, 0)`, `distSquared` returns `LONG_MIN`, a
negative value. -/
theorem distSquared_rounds :
    [(94906267 : Int), 1].length = [(0 : Int), 0].length ∧
    distSquared ⟨[94906267, 1]⟩ ⟨[0, 0]⟩ = some 9007199515875288 ∧
    Finset.sum (Finset.range 2)
      (fun i => (([94906267, 1] : List Int).getD i 0 - ([0, 0] : List Int).getD i 0) ^ 2)
      = 9007199515875290 ∧
    distSquared ⟨[2147483647, 2147483647, 2147483647]⟩ ⟨[0, 0, 0]⟩
      = some (-9223372036854775808) := by
  decide

/-- C13 (insertion into an empty tree): for every point `p`, with or without coordinates,
`add(p)` on a tree without root returns, and leaves a tree whose root is a node holding `p`
with no left and no right child; the recorded dimensionality is unchanged. -/
theorem add_into_empty (t : KDTree) (p : List Int) (h : t.root = .nullptr) :
    t.add (KDNode.new p)
      = some { root := .node .nullptr p .nullptr, numDims := t.numDims } := by
  rw [KDTree.add_root_nullptr t _ h]
  rfl

/-- Witness of C13: the first insertion of `main` into `KDTree(2)`. -/
theorem add_into_empty_witness :
    (KDTree.new 2).root = .nullptr ∧
    (KDTree.new 2).add (KDNode.new [50, 50, 1])
      = some { root := .node .nullptr [50, 50, 1] .nullptr, numDims := 2 } :=
  ⟨rfl, add_into_empty (KDTree.new 2) [50, 50, 1] rfl⟩

/-- C17 (symmetry of the distance on equal lengths): for every two points `p` and `q` of the
same length, `distSquared(p, q)` and `distSquared(q, p)` return the same value, so the radius
`distSquared(target, best)` of `nearestNeighbor` is the distance `distSquared(best, target)`
that `closest` compares. -/
theorem distSquared_symm (p q : List Int) (h : p.length = q.length) :
    distSquared ⟨p⟩ ⟨q⟩ = distSquared ⟨q⟩ ⟨p⟩ ∧ ∃ v, distSquared ⟨p⟩ ⟨q⟩ = some v := by
  by_cases hq : q = []
  · subst hq
    have hp : p = [] := List.length_eq_zero.mp (by simpa using h)
    subst hp
    exact ⟨rfl, 0, distSquared_nil_nil⟩
  · have hp : p ≠ [] := by
      intro h0; rw [h0] at h; exact hq (List.length_eq_zero.mp (by simpa using h.symm))
    rw [distSquared_eq_loopDist p q hq, distSquared_eq_loopDist q p hp, loopDist_comm p q h]
    exact ⟨rfl, _, rfl⟩

/-- Witness of C17 on `(40, 40)` and `(48, 38)`. -/
theorem distSquared_symm_witness :
    [(40 : Int), 40].length = [(48 : Int), 38].length ∧
    distSquared ⟨[40, 40]⟩ ⟨[48, 38]⟩ = distSquared ⟨[48, 38]⟩ ⟨[40, 40]⟩ :=
  ⟨by decide, (distSquared_symm [40, 40] [48, 38] (by decide)).1⟩

/-- C18 (the scenario of `main`): from the empty tree `KDTree(2)`, the insertions of
`(50,50,1)`, `(80,40,2)`, `(10,60,3)`, `(51,38,4)`, `(48,38,5)` in that order all return, and
on the tree they leave `nearestNeighbor` of the target `(40, 40)` returns the node holding
`(48,38,5)`, a leaf. -/
theorem main_scenario :
    (KDTree.new 2).addAll mainPoints = some { root := mainRoot, numDims := 2 } ∧
    (KDTree.mk mainRoot 2).nearestNeighbor ⟨[40, 40]⟩
      = some (.node .nullptr [48, 38, 5] .nullptr) ∧
    KDNode.node .nullptr [48, 38, 5] .nullptr ∈ mainRoot.nodes := by
  decide

/-- The root that the public `add` leaves depends on the root only, not on `numDims`. -/
theorem KDTree.add_root_congr (t1 t2 : KDTree) (n : KDNode) (h : t1.root = t2.root) :
    (t1.add n).map KDTree.root = (t2.add n).map KDTree.root := by
  by_cases h0 : t1.root = .nullptr
  · rw [KDTree.add_root_nullptr t1 n h0, KDTree.add_root_nullptr t2 n (h ▸ h0)]
    rfl
  · rw [KDTree.add_root_node t1 n h0, KDTree.add_root_node t2 n (h ▸ h0), ← h]
    cases EDAA.add t1.root n 0 <;> rfl

theorem KDTree.addAll_root_congr (ps : List (List Int)) (t1 t2 : KDTree)
    (h : t1.root = t2.root) :
    (t1.addAll ps).map KDTree.root = (t2.addAll ps).map KDTree.root := by
  induction ps generalizing t1 t2 with
  | nil => simp [KDTree.addAll, h]
  | cons p rest ih =>
    have hstep := KDTree.add_root_congr t1 t2 (KDNode.new p) h
    simp only [KDTree.addAll, List.foldlM_cons, Option.bind_eq_bind]
    cases h1 : t1.add (KDNode.new p) with
    | none =>
      cases h2 : t2.add (KDNode.new p) with
      | none => rfl
      | some b => rw [h1, h2] at hstep; cases hstep
    | some a =>
      cases h2 : t2.add (KDNode.new p) with
      | none => rw [h1, h2] at hstep; cases hstep
      | some b =>
        rw [h1, h2] at hstep
        exact ih a b (Option.some.inj hstep)

/-- C19 (the recorded dimensionality is not read): for every two values `d1` and `d2`, every
sequence of points added to `KDTree(d1)` and to `KDTree(d2)` and every target, the two runs
of insertions have the same outcome and leave the same root, hence the same node structure,
and `nearestNeighbor` has the same outcome on both; when every point and the target have a
coordinate, both runs return and give the same result. -/
theorem numDims_not_read (d1 d2 : Int) (ps : List (List Int)) (target : KDPoint) :
    ((KDTree.new d1).addAll ps).map KDTree.root = ((KDTree.new d2).addAll ps).map KDTree.root ∧
    ((KDTree.new d1).addAll ps).bind (fun t => t.nearestNeighbor target)
      = ((KDTree.new d2).addAll ps).bind (fun t => t.nearestNeighbor target) ∧
    ((∀ p ∈ ps, p ≠ []) → target.props ≠ [] →
      ∃ t1 t2 res, (KDTree.new d1).addAll ps = some t1 ∧ (KDTree.new d2).addAll ps = some t2 ∧
        t1.root = t2.root ∧ t1.nearestNeighbor target = some res ∧
        t2.nearestNeighbor target = some res) := by
  have hroot := KDTree.addAll_root_congr ps (KDTree.new d1) (KDTree.new d2) rfl
  have hnn : ((KDTree.new d1).addAll ps).bind (fun t => t.nearestNeighbor target)
      = ((KDTree.new d2).addAll ps).bind (fun t => t.nearestNeighbor target) := by
    cases h1 : (KDTree.new d1).addAll ps with
    | none =>
      cases h2 : (KDTree.new d2).addAll ps with
      | none => rfl
      | some b => rw [h1, h2] at hroot; cases hroot
    | some a =>
      cases h2 : (KDTree.new d2).addAll ps with
      | none => rw [h1, h2] at hroot; cases hroot
      | some b =>
        rw [h1, h2] at hroot
        simp only [Option.some_bind, KDTree.nearestNeighbor]
        rw [Option.some.inj hroot]
  refine ⟨hroot, hnn, ?_⟩
  intro hps ht
  have hempty : ∀ d, (KDTree.new d).root.AllNonEmpty := by
    intro d x hx; simp [KDTree.new, KDNode.points] at hx
  obtain ⟨t1, h1, -, hperm1, -⟩ := KDTree.addAll_spec ps hps (KDTree.new d1) (hempty d1)
  obtain ⟨t2, h2, -⟩ := KDTree.addAll_spec ps hps (KDTree.new d2) (hempty d2)
  rw [h1, h2] at hroot
  have hr : t1.root = t2.root := Option.some.inj hroot
  have hne1 : t1.root.AllNonEmpty := by
    intro x hx
    rcases List.mem_append.mp (hperm1.mem_iff.mp hx) with h | h
    · exact hps x h
    · simp [KDTree.new, KDNode.points] at h
  obtain ⟨res, hres, -⟩ := nearestNeighbor_spec target.props ht t1.root 0 hne1
  exact ⟨t1, t2, res, h1, h2, hr, hres, by rw [KDTree.nearestNeighbor, ← hr]; exact hres⟩

/-- Witness of C19: the points of `main` and the target `(40, 40)` on `KDTree(2)` and
`KDTree(3)`. -/
theorem numDims_not_read_witness :
    ((∀ p ∈ mainPoints, p ≠ []) ∧ (KDPoint.mk [40, 40]).props ≠ []) ∧
    ∃ t1 t2 res, (KDTree.new 2).addAll mainPoints = some t1 ∧
      (KDTree.new 3).addAll mainPoints = some t2 ∧ t1.root = t2.root ∧
      t1.nearestNeighbor ⟨[40, 40]⟩ = some res ∧ t2.nearestNeighbor ⟨[40, 40]⟩ = some res :=
  ⟨⟨by decide, by decide⟩,
    (numDims_not_read 2 3 mainPoints ⟨[40, 40]⟩).2.2 (by decide) (by decide)⟩

/-- C20 at the coordinates `t = 2147483647` and `n = -2`, both 32-bit signed values: the
`int` subtraction wraps to `-2147483647`, so `dist * dist` is `4611686014132420609`, and the
exact `(t - n)^2` is `4611686022722355201`. -/
theorem distTimesDist_wraps :
    (-2147483648 ≤ (2147483647 : Int) ∧ (2147483647 : Int) ≤ 2147483647) ∧
    (-2147483648 ≤ (-2 : Int) ∧ (-2 : Int) ≤ 2147483647) ∧
    wrapSigned 32 (2147483647 - (-2)) = -2147483647 ∧
    distTimesDist 2147483647 (-2) = 4611686014132420609 ∧
    ((2147483647 : Int) - (-2)) ^ 2 = 4611686022722355201 ∧
    distTimesDist 2147483647 (-2) ≠ (2147483647 - (-2)) ^ 2 := by
  decide

theorem coord_eq_getD_of_length (q : List Int) (D : Nat) (h : q.length = D) (k : Nat) :
    coord q k = q.getD (k % D) 0 := by
  unfold coord
  rw [h, List.getD_eq_getElem?_getD]

/-- On points of length `D` the two writings of the splitting invariant agree. -/
theorem KDNode.splitD_iff_split (D : Nat) (n : KDNode) (k : Nat) (hlen : n.AllLength D) :
    n.SplitD D k ↔ n.Split k := by
  induction n generalizing k with
  | nullptr => simp [KDNode.SplitD, KDNode.Split]
  | node l p r ihl ihr =>
    obtain ⟨hp, hl, hr⟩ := KDNode.allLength_node hlen
    simp only [KDNode.SplitD, KDNode.Split, ihl (k + 1) hl, ihr (k + 1) hr,
      coord_eq_getD_of_length p D hp k]
    constructor
    · rintro ⟨h1, h2, h3, h4⟩
      refine ⟨fun q hq => ?_, fun q hq => ?_, h3, h4⟩
      · rw [coord_eq_getD_of_length q D (hl q hq) k]; exact h1 q hq
      · rw [coord_eq_getD_of_length q D (hr q hq) k]; exact h2 q hq
    · rintro ⟨h1, h2, h3, h4⟩
      refine ⟨fun q hq => ?_, fun q hq => ?_, h3, h4⟩
      · rw [← coord_eq_getD_of_length q D (hl q hq) k]; exact h1 q hq
      · rw [← coord_eq_getD_of_length q D (hr q hq) k]; exact h2 q hq

theorem ne_nil_of_length_eq {D : Nat} (hD : 1 ≤ D) {p : List Int} (h : p.length = D) :
    p ≠ [] := by
  intro h0
  rw [h0] at h
  simp at h
  omega

/-- C14 (the splitting invariant is kept by insertion): for every `D ≥ 1`, the empty tree
satisfies the invariant; `add` of a point of length `D` to a tree of points of length `D`
that satisfies it returns a tree of points of length `D` that satisfies it; hence every tree
built from the empty tree by `add` of points of length `D` satisfies it: at every node `n` of
depth `k`, each point `q` of the left subtree has `q[k mod D] < n[k mod D]` and each point `q`
of the right subtree has `q[k mod D] ≥ n[k mod D]`. -/
theorem split_invariant (D : Nat) (hD : 1 ≤ D) (d : Int) :
    (KDTree.new d).root.SplitD D 0 ∧
    (∀ (t : KDTree) (p : List Int), t.root.AllLength D → t.root.SplitD D 0 → p.length = D →
      ∃ t', t.add (KDNode.new p) = some t' ∧ t'.root.AllLength D ∧ t'.root.SplitD D 0) ∧
    (∀ ps : List (List Int), (∀ p ∈ ps, p.length = D) →
      ∃ t, (KDTree.new d).addAll ps = some t ∧ t.root.AllLength D ∧ t.root.SplitD D 0) := by
  refine ⟨by simp [KDTree.new, KDNode.SplitD], ?_, ?_⟩
  · intro t p hlen hsplit hp
    obtain ⟨t', hadd, -, -, hperm, -, hkeep⟩ :=
      KDTree.add_returns t p (ne_nil_of_length_eq hD hp) (hlen.allNonEmpty hD)
    have hlen' : t'.root.AllLength D := by
      intro x hx
      rcases List.mem_cons.mp (hperm.mem_iff.mp hx) with rfl | hx'
      · exact hp
      · exact hlen x hx'
    exact ⟨t', hadd, hlen',
      (KDNode.splitD_iff_split D _ 0 hlen').mpr
        (hkeep ((KDNode.splitD_iff_split D _ 0 hlen).mp hsplit))⟩
  · intro ps hps
    obtain ⟨t, hall, -, hperm, -, hkeep⟩ :=
      KDTree.addAll_spec ps (fun p hp => ne_nil_of_length_eq hD (hps p hp)) (KDTree.new d)
        (by intro x hx; simp [KDTree.new, KDNode.points] at hx)
    have hlen : t.root.AllLength D := by
      intro x hx
      rcases List.mem_append.mp (hperm.mem_iff.mp hx) with h | h
      · exact hps x h
      · simp [KDTree.new, KDNode.points] at h
    exact ⟨t, hall, hlen,
      (KDNode.splitD_iff_split D _ 0 hlen).mpr (hkeep (by simp [KDTree.new, KDNode.Split]))⟩

/-- Witness of C14: the tree built from the five points of the example satisfies the
invariant for `D = 2`, and so does the tree after one more insertion. -/
theorem split_invariant_witness :
    1 ≤ 2 ∧
    (∃ t, (KDTree.new 2).addAll examplePoints = some t ∧ t.root.AllLength 2 ∧
      t.root.SplitD 2 0) ∧
    (exampleRoot.SplitD 2 0 →
      ∃ t', (KDTree.mk exampleRoot 2).add (KDNode.new [50, 38]) = some t' ∧
        t'.root.AllLength 2 ∧ t'.root.SplitD 2 0) :=
  ⟨by decide, (split_invariant 2 (by decide) 2).2.2 examplePoints (by decide),
    fun h => (split_invariant 2 (by decide) 2).2.1 (KDTree.mk exampleRoot 2) [50, 38]
      (by decide) h (by decide)⟩

/-- The private `nearestNeighbor` on a node, with the comparison of lines 121-127 made
explicit. -/
theorem nearestNeighbor_node_eq (l r : KDNode) (p t : List Int) (k : Nat) (hp : p ≠ [])
    (ht : t ≠ []) :
    nearestNeighbor (.node l p r) ⟨t⟩ k =
      if coord t k < coord p k then
        nearestNeighborRest (.node l p r) ⟨t⟩ k
          (nearestNeighbor l ⟨t⟩ (k + 1)) (nearestNeighbor r ⟨t⟩ (k + 1))
      else
        nearestNeighborRest (.node l p r) ⟨t⟩ k
          (nearestNeighbor r ⟨t⟩ (k + 1)) (nearestNeighbor l ⟨t⟩ (k + 1)) := by
  rw [nearestNeighbor]
  simp only [Option.bind_eq_bind, Option.some_bind, KDPoint.get_point_eq t k ht,
    KDNode.get_node_eq l r p k hp]

theorem nearestNeighborStrict_node_eq (l r : KDNode) (p t : List Int) (k : Nat) (hp : p ≠ [])
    (ht : t ≠ []) :
    nearestNeighborStrict (.node l p r) ⟨t⟩ k =
      if coord t k < coord p k then
        nearestNeighborRestStrict (.node l p r) ⟨t⟩ k
          (nearestNeighborStrict l ⟨t⟩ (k + 1)) (nearestNeighborStrict r ⟨t⟩ (k + 1))
      else
        nearestNeighborRestStrict (.node l p r) ⟨t⟩ k
          (nearestNeighborStrict r ⟨t⟩ (k + 1)) (nearestNeighborStrict l ⟨t⟩ (k + 1)) := by
  rw [nearestNeighborStrict]
  simp only [Option.bind_eq_bind, Option.some_bind, KDPoint.get_point_eq t k ht,
    KDNode.get_node_eq l r p k hp]

/-- Lines 129-141 once `best` of line 130 is known: the far call is consulted exactly when
the radius reaches the product `dist * dist`. -/
theorem nearestNeighborRest_eq (l r : KDNode) (p t : List Int) (k : Nat) (hp : p ≠ [])
    (ht : t ≠ []) (temp a c : KDNode) (b : List Int) (hb : b ≠ [])
    (hbest : closest temp (.node l p r) ⟨t⟩ = some (.node a b c)) (other : Option KDNode) :
    nearestNeighborRest (.node l p r) ⟨t⟩ k (some temp) other =
      if loopDist t b ≥ distTimesDist (coord t k) (coord p k) then
        other.bind (fun temp2 => closest temp2 (.node a b c) ⟨t⟩)
      else some (.node a b c) := by
  simp only [nearestNeighborRest, Option.bind_eq_bind, Option.some_bind, hbest, KDNode.point?,
    distSquared_eq_loopDist t b hb, KDPoint.get_point_eq t k ht, KDNode.get_node_eq l r p k hp]

theorem nearestNeighborRestStrict_eq (l r : KDNode) (p t : List Int) (k : Nat) (hp : p ≠ [])
    (ht : t ≠ []) (temp a c : KDNode) (b : List Int) (hb : b ≠ [])
    (hbest : closest temp (.node l p r) ⟨t⟩ = some (.node a b c)) (other : Option KDNode) :
    nearestNeighborRestStrict (.node l p r) ⟨t⟩ k (some temp) other =
      if loopDist t b > distTimesDist (coord t k) (coord p k) then
        other.bind (fun temp2 => closest temp2 (.node a b c) ⟨t⟩)
      else some (.node a b c) := by
  simp only [nearestNeighborRestStrict, Option.bind_eq_bind, Option.some_bind, hbest,
    KDNode.point?, distSquared_eq_loopDist t b hb, KDPoint.get_point_eq t k ht,
    KDNode.get_node_eq l r p k hp]

/-- The candidate `best` of line 130 exists, is a node of the tree below the current node,
and its point is stored there. -/
theorem best_after_near (l r : KDNode) (p t : List Int) (ht : t ≠ []) (near resN : KDNode)
    (hnear : ∀ n ∈ near.nodes, n ∈ (KDNode.node l p r).nodes)
    (hN : resN = .nullptr ∨ resN ∈ near.nodes) :
    ∃ a b c, closest resN (.node l p r) ⟨t⟩ = some (.node a b c) ∧
      b ∈ (KDNode.node l p r).points := by
  obtain ⟨best, hbest, hbor, -, hbroot⟩ := closest_spec resN (.node l p r) t ht
  obtain ⟨a, b, c, rfl, -⟩ := hbroot l p r rfl
  refine ⟨a, b, c, hbest, ?_⟩
  have hbmem : KDNode.node a b c ∈ (KDNode.node l p r).nodes := by
    rcases hbor with h | h
    · rcases hN with hN | hN
      · rw [hN] at h; cases h
      · rw [h]; exact hnear _ hN
    · rw [h]; exact KDNode.self_mem_nodes l r p
  obtain ⟨x, y, z, hxyz, hy⟩ := KDNode.mem_nodes_point hbmem
  cases hxyz
  exact hy

/-- The points of the far subtree are at least as far from the target as the splitting
coordinate of the node. -/
theorem far_bound (l r : KDNode) (p t : List Int) (k : Nat)
    (hsplit : (KDNode.node l p r).Split k) :
    (coord t k < coord p k →
      ∀ q ∈ r.points, (coord t k - coord p k) ^ 2 ≤ (coord t k - coord q k) ^ 2) ∧
    (¬ coord t k < coord p k →
      ∀ q ∈ l.points, (coord t k - coord p k) ^ 2 ≤ (coord t k - coord q k) ^ 2) := by
  simp only [KDNode.Split] at hsplit
  constructor
  · intro hcmp q hq
    have := hsplit.2.1 q hq
    nlinarith
  · intro hcmp q hq
    have := hsplit.1 q hq
    nlinarith

theorem KDNode.split_follow (n : KDNode) (k : Nat) (path : List Bool) (h : n.Split k) :
    (n.follow path).Split (k + path.length) := by
  induction path generalizing n k with
  | nil => simpa [KDNode.follow] using h
  | cons b rest ih =>
    cases n with
    | nullptr => simp [KDNode.follow, KDNode.Split]
    | node l p r =>
      simp only [KDNode.Split] at h
      have hk : k + (b :: rest).length = (k + 1) + rest.length := by
        simp only [List.length_cons]; omega
      rw [hk]
      cases b with
      | true => simpa [KDNode.follow] using ih r (k + 1) h.2.2.2
      | false => simpa [KDNode.follow] using ih l (k + 1) h.2.2.1

theorem KDNode.points_follow (n : KDNode) (path : List Bool) :
    ∀ q ∈ (n.follow path).points, q ∈ n.points := by
  induction path generalizing n with
  | nil => intro q hq; simpa [KDNode.follow] using hq
  | cons b rest ih =>
    cases n with
    | nullptr => intro q hq; simp [KDNode.follow, KDNode.points] at hq
    | node l p r =>
      intro q hq
      cases b with
      | true =>
        have := ih r q (by simpa [KDNode.follow] using hq)
        simp [KDNode.points, this]
      | false =>
        have := ih l q (by simpa [KDNode.follow] using hq)
        simp [KDNode.points, this]

/-- At a node of points of the target's length with small coordinates that satisfies the
splitting invariant at its depth: the far branch, the candidate of line 130 and the radius of
line 132 are defined, the radius is the exact squared distance of the candidate, and when it
is below the squared difference at the splitting coordinate the call returns the candidate
and every point of the far subtree is farther than the radius. -/
theorem pruning_at_node (B : Int) (l r : KDNode) (p t : List Int) (k : Nat) (ht : t ≠ [])
    (hB : (t.length : Int) * (2 * B) ^ 2 < 2 ^ 53) (hts : SmallCoords B t)
    (hsm : (KDNode.node l p r).AllSmall B)
    (hlen : (KDNode.node l p r).AllLength t.length) (hsplit : (KDNode.node l p r).Split k) :
    ∃ far a b c, otherBranch (.node l p r) ⟨t⟩ k = some far ∧
      bestBeforeOther (.node l p r) ⟨t⟩ k = some (.node a b c) ∧
      radiusSquared (.node l p r) ⟨t⟩ k = some (sqDist t b) ∧
      (sqDist t b < (coord t k - coord p k) ^ 2 →
        nearestNeighbor (.node l p r) ⟨t⟩ k = some (.node a b c) ∧
        ∀ q ∈ far.points, sqDist t b < sqDist t q) := by
  have hD : 1 ≤ t.length := List.length_pos.mpr ht
  have hB1 := one_bound_of_length ht hB
  have hne := hlen.allNonEmpty hD
  obtain ⟨hp, hl, hr⟩ := KDNode.allNonEmpty_node hne
  obtain ⟨-, hllen, hrlen⟩ := KDNode.allLength_node hlen
  obtain ⟨hps, -, -⟩ := KDNode.allSmall_node hsm
  obtain ⟨resL, hresL, hLnull, hLmem, -⟩ := nearestNeighbor_spec t ht l (k + 1) hl
  obtain ⟨resR, hresR, hRnull, hRmem, -⟩ := nearestNeighbor_spec t ht r (k + 1) hr
  have hLor : resL = .nullptr ∨ resL ∈ l.nodes := by
    by_cases h : l = .nullptr
    · exact Or.inl (hLnull h)
    · exact Or.inr (hLmem h)
  have hRor : resR = .nullptr ∨ resR ∈ r.nodes := by
    by_cases h : r = .nullptr
    · exact Or.inl (hRnull h)
    · exact Or.inr (hRmem h)
  have hlsub : ∀ n ∈ l.nodes, n ∈ (KDNode.node l p r).nodes := by
    intro n hn; simp [KDNode.nodes, hn]
  have hrsub : ∀ n ∈ r.nodes, n ∈ (KDNode.node l p r).nodes := by
    intro n hn; simp [KDNode.nodes, hn]
  have hfar := far_bound l r p t k hsplit
  have hskip : ∀ (far : KDNode) (b : List Int), b.length = t.length →
      far.AllLength t.length →
      (∀ q ∈ far.points, (coord t k - coord p k) ^ 2 ≤ (coord t k - coord q k) ^ 2) →
      sqDist t b < (coord t k - coord p k) ^ 2 → ∀ q ∈ far.points, sqDist t b < sqDist t q := by
    intro far b _ hfl hbound hlt q hq
    have h1 := hbound q hq
    have h2 := sq_coord_le_sqDist t q k (hfl q hq).symm ht
    omega
  by_cases hcmp : coord t k < coord p k
  · obtain ⟨a, b, c, hbest, hbmem⟩ := best_after_near l r p t ht l resL hlsub hLor
    have hbne : b ≠ [] := hne b hbmem
    have hbl : b.length = t.length := hlen b hbmem
    have hdist := distSquared_eq_sqDist B t b hbl.symm hbne hB hts (hsm b hbmem)
    refine ⟨r, a, b, c, ?_, ?_, ?_, ?_⟩
    · simp [otherBranch, KDPoint.get_point_eq t k ht, KDNode.get_node_eq l r p k hp, hcmp]
    · simp [bestBeforeOther, nextBranch, KDPoint.get_point_eq t k ht,
        KDNode.get_node_eq l r p k hp, hcmp, hresL, hbest]
    · simp [radiusSquared, bestBeforeOther, nextBranch, KDPoint.get_point_eq t k ht,
        KDNode.get_node_eq l r p k hp, hcmp, hresL, hbest, KDNode.point?, hdist]
    · intro hlt
      refine ⟨?_, hskip r b hbl hrlen (hfar.1 hcmp) hlt⟩
      rw [nearestNeighbor_node_eq l r p t k hp ht, if_pos hcmp, hresL,
        nearestNeighborRest_eq l r p t k hp ht resL a c b hbne hbest,
        loopDist_eq_sqDist B t b hbl.symm hB hts (hsm b hbmem),
        distTimesDist_coord B t p k ht hp hB1 hts hps, if_neg]
      rw [ge_iff_le, not_le]
      exact hlt
  · obtain ⟨a, b, c, hbest, hbmem⟩ := best_after_near l r p t ht r resR hrsub hRor
    have hbne : b ≠ [] := hne b hbmem
    have hbl : b.length = t.length := hlen b hbmem
    have hdist := distSquared_eq_sqDist B t b hbl.symm hbne hB hts (hsm b hbmem)
    refine ⟨l, a, b, c, ?_, ?_, ?_, ?_⟩
    · simp [otherBranch, KDPoint.get_point_eq t k ht, KDNode.get_node_eq l r p k hp, hcmp]
    · simp [bestBeforeOther, nextBranch, KDPoint.get_point_eq t k ht,
        KDNode.get_node_eq l r p k hp, hcmp, hresR, hbest]
    · simp [radiusSquared, bestBeforeOther, nextBranch, KDPoint.get_point_eq t k ht,
        KDNode.get_node_eq l r p k hp, hcmp, hresR, hbest, KDNode.point?, hdist]
    · intro hlt
      refine ⟨?_, hskip l b hbl hllen (hfar.2 hcmp) hlt⟩
      rw [nearestNeighbor_node_eq l r p t k hp ht, if_neg hcmp, hresR,
        nearestNeighborRest_eq l r p t k hp ht resR a c b hbne hbest,
        loopDist_eq_sqDist B t b hbl.symm hB hts (hsm b hbmem),
        distTimesDist_coord B t p k ht hp hB1 hts hps, if_neg]
      rw [ge_iff_le, not_le]
      exact hlt

/-- Far-side pruning on small coordinates: in a tree built by `add` from points of length
`D ≥ 1`, with a target of length `D`, all with coordinates between `-B` and `B` and
`D * (2 * B) ^ 2 < 2 ^ 53`, at every node `n` of the tree, of depth `k`: whenever
`radiusSquared < (target.get(k) - n.get(k))^2`, the call returns the candidate of line 130
without visiting the far child, and every point of the far subtree has a squared distance to
the target strictly greater than `radiusSquared`. -/
theorem pruning_sound_of_small (D : Nat) (hD : 1 ≤ D) (B : Int)
    (hB : (D : Int) * (2 * B) ^ 2 < 2 ^ 53) (d : Int) (ps : List (List Int))
    (hlen : ∀ p ∈ ps, p.length = D) (hsmall : ∀ p ∈ ps, SmallCoords B p)
    (target : List Int) (ht : target.length = D) (hts : SmallCoords B target)
    (t : KDTree) (hbuilt : (KDTree.new d).addAll ps = some t) (path : List Bool)
    (l r : KDNode) (p : List Int) (hnode : t.root.follow path = .node l p r) :
    ∃ far best rad tv nv,
      otherBranch (.node l p r) ⟨target⟩ path.length = some far ∧
      bestBeforeOther (.node l p r) ⟨target⟩ path.length = some best ∧
      radiusSquared (.node l p r) ⟨target⟩ path.length = some rad ∧
      KDPoint.get ⟨target⟩ path.length = some tv ∧
      (KDNode.node l p r).get path.length = some nv ∧
      (rad < (tv - nv) ^ 2 →
        nearestNeighbor (.node l p r) ⟨target⟩ path.length = some best ∧
        ∀ q ∈ far.points, rad < sqDist target q) := by
  have hne : ∀ p ∈ ps, p ≠ [] := fun p hp => ne_nil_of_length_eq hD (hlen p hp)
  obtain ⟨t', hall, -, hperm, -, hkeep⟩ :=
    KDTree.addAll_spec ps hne (KDTree.new d)
      (by intro x hx; simp [KDTree.new, KDNode.points] at hx)
  rw [hbuilt] at hall
  cases hall
  have hmem : ∀ x ∈ t.root.points, x ∈ ps := by
    intro x hx
    rcases List.mem_append.mp (hperm.mem_iff.mp hx) with h | h
    · exact h
    · simp [KDTree.new, KDNode.points] at h
  have hsplit : t.root.Split 0 := hkeep (by simp [KDTree.new, KDNode.Split])
  have htne : target ≠ [] := ne_nil_of_length_eq hD ht
  have hin : ∀ x ∈ (KDNode.node l p r).points, x ∈ ps := by
    intro x hx
    exact hmem x (KDNode.points_follow t.root path x (by rw [hnode]; exact hx))
  have hsub : (KDNode.node l p r).AllLength target.length := by
    intro x hx
    rw [ht]
    exact hlen x (hin x hx)
  have hsm : (KDNode.node l p r).AllSmall B := fun x hx => hsmall x (hin x hx)
  have hsp : (KDNode.node l p r).Split path.length := by
    have := KDNode.split_follow t.root 0 path hsplit
    rwa [hnode, Nat.zero_add] at this
  have hp : p ≠ [] := (KDNode.allNonEmpty_node (hsub.allNonEmpty (ht ▸ hD))).1
  obtain ⟨far, a, b, c, hfar, hbest, hrad, hskip⟩ :=
    pruning_at_node B l r p target path.length htne (ht ▸ hB) hts hsm hsub hsp
  exact ⟨far, .node a b c, sqDist target b, coord target path.length, coord p path.length,
    hfar, hbest, hrad, KDPoint.get_point_eq target _ htne, KDNode.get_node_eq l r p _ hp, hskip⟩

/-- C15 at the root of the tree built from `(94906267, 1)`, `(94906267, 0)` with the target
`(0, 0)`, at depth 0: `radiusSquared` is `9007199515875288`, below
`(target.get(0) - n.get(0))^2 = 9007199515875289`, and the right child is skipped; the point
`(94906267, 0)` of the skipped subtree is at exact squared distance `9007199515875289`, closer
than the candidate kept, which is at `9007199515875290`, and the distance `distSquared`
computes for it is `9007199515875288`, not greater than `radiusSquared`. -/
theorem pruning_skips_nearer_point :
    (KDTree.new 2).addAll roundingPoints = some (KDTree.mk roundingRoot 2) ∧
    otherBranch roundingRoot ⟨[0, 0]⟩ 0 = some (KDNode.new [94906267, 0]) ∧
    bestBeforeOther roundingRoot ⟨[0, 0]⟩ 0 = some roundingRoot ∧
    radiusSquared roundingRoot ⟨[0, 0]⟩ 0 = some 9007199515875288 ∧
    KDPoint.get ⟨[0, 0]⟩ 0 = some 0 ∧ roundingRoot.get 0 = some 94906267 ∧
    (9007199515875288 : Int) < (0 - 94906267) ^ 2 ∧
    distTimesDist 0 94906267 = 9007199515875289 ∧
    nearestNeighbor roundingRoot ⟨[0, 0]⟩ 0 = some roundingRoot ∧
    distSquared ⟨[0, 0]⟩ ⟨[94906267, 0]⟩ = some 9007199515875288 ∧
    sqDist [0, 0] [94906267, 0] = 9007199515875289 ∧
    sqDist [0, 0] [94906267, 1] = 9007199515875290 := by
  decide

/-- With the results of the two recursive calls given, on points of the target's length with
small coordinates and a far subtree beyond the splitting coordinate, the strict test and the
test of the source give the same result: on equality the far result is never strictly
closer. -/
theorem nearestNeighborRestStrict_eq_rest (B : Int) (l r : KDNode) (p t : List Int) (k : Nat)
    (ht : t ≠ []) (hB : (t.length : Int) * (2 * B) ^ 2 < 2 ^ 53) (hts : SmallCoords B t)
    (hsm : (KDNode.node l p r).AllSmall B) (hlen : (KDNode.node l p r).AllLength t.length)
    (near far resN resF : KDNode)
    (hnear : ∀ n ∈ near.nodes, n ∈ (KDNode.node l p r).nodes)
    (hN : resN = .nullptr ∨ resN ∈ near.nodes)
    (hF : resF = .nullptr ∨ resF ∈ far.nodes)
    (hfarlen : far.AllLength t.length) (hfarsm : far.AllSmall B)
    (hbound : ∀ q ∈ far.points, (coord t k - coord p k) ^ 2 ≤ (coord t k - coord q k) ^ 2) :
    nearestNeighborRestStrict (.node l p r) ⟨t⟩ k (some resN) (some resF)
      = nearestNeighborRest (.node l p r) ⟨t⟩ k (some resN) (some resF) := by
  have hD : 1 ≤ t.length := List.length_pos.mpr ht
  have hB1 := one_bound_of_length ht hB
  have hne := hlen.allNonEmpty hD
  obtain ⟨hp, -, -⟩ := KDNode.allNonEmpty_node hne
  obtain ⟨hps, -, -⟩ := KDNode.allSmall_node hsm
  obtain ⟨a, b, c, hbest, hbmem⟩ := best_after_near l r p t ht near resN hnear hN
  have hbne : b ≠ [] := hne b hbmem
  have hbl : b.length = t.length := hlen b hbmem
  rw [nearestNeighborRestStrict_eq l r p t k hp ht resN a c b hbne hbest,
    nearestNeighborRest_eq l r p t k hp ht resN a c b hbne hbest]
  by_cases hgt : loopDist t b > distTimesDist (coord t k) (coord p k)
  · rw [if_pos hgt, if_pos (le_of_lt hgt)]
  · rw [if_neg hgt]
    by_cases hge : loopDist t b ≥ distTimesDist (coord t k) (coord p k)
    · rw [if_pos hge]
      have heq : sqDist t b = (coord t k - coord p k) ^ 2 := by
        rw [← loopDist_eq_sqDist B t b hbl.symm hB hts (hsm b hbmem),
          ← distTimesDist_coord B t p k ht hp hB1 hts hps]
        exact le_antisymm (not_lt.mp hgt) hge
      simp only [Option.some_bind]
      rcases hF with hF | hF
      · rw [hF]; rfl
      · obtain ⟨x, q, z, rfl, hq⟩ := KDNode.mem_nodes_point hF
        rw [closest_node_node x z a c q b t ht, if_neg]
        have hql : q.length = t.length := hfarlen q hq
        rw [loopDist_eq_sqDist B q t hql (hql ▸ hB) (hfarsm q hq) hts,
          loopDist_eq_sqDist B b t hbl (hbl ▸ hB) (hsm b hbmem) hts, sqDist_comm q t hql,
          sqDist_comm b t hbl, heq]
        have h1 := hbound q hq
        have h2 := sq_coord_le_sqDist t q k hql.symm ht
        omega
    · rw [if_neg hge]

/-- On a tree of points of the target's length with small coordinates that satisfies the
splitting invariant, the search with the strict pruning test has the outcome of the search
of the source. -/
theorem nearestNeighborStrict_eq (B : Int) (t : List Int) (ht : t ≠ [])
    (hB : (t.length : Int) * (2 * B) ^ 2 < 2 ^ 53) (hts : SmallCoords B t) (root : KDNode)
    (k : Nat) (hsm : root.AllSmall B) (hlen : root.AllLength t.length) (hsplit : root.Split k) :
    nearestNeighborStrict root ⟨t⟩ k = nearestNeighbor root ⟨t⟩ k := by
  induction root generalizing k with
  | nullptr => rfl
  | node l p r ihl ihr =>
    have hD : 1 ≤ t.length := List.length_pos.mpr ht
    have hne := hlen.allNonEmpty hD
    obtain ⟨hp, hl, hr⟩ := KDNode.allNonEmpty_node hne
    obtain ⟨-, hllen, hrlen⟩ := KDNode.allLength_node hlen
    obtain ⟨-, hlsm, hrsm⟩ := KDNode.allSmall_node hsm
    have hfar := far_bound l r p t k hsplit
    simp only [KDNode.Split] at hsplit
    obtain ⟨resL, hresL, hLnull, hLmem, -⟩ := nearestNeighbor_spec t ht l (k + 1) hl
    obtain ⟨resR, hresR, hRnull, hRmem, -⟩ := nearestNeighbor_spec t ht r (k + 1) hr
    have hLor : resL = .nullptr ∨ resL ∈ l.nodes := by
      by_cases h : l = .nullptr
      · exact Or.inl (hLnull h)
      · exact Or.inr (hLmem h)
    have hRor : resR = .nullptr ∨ resR ∈ r.nodes := by
      by_cases h : r = .nullptr
      · exact Or.inl (hRnull h)
      · exact Or.inr (hRmem h)
    have hlsub : ∀ n ∈ l.nodes, n ∈ (KDNode.node l p r).nodes := by
      intro n hn; simp [KDNode.nodes, hn]
    have hrsub : ∀ n ∈ r.nodes, n ∈ (KDNode.node l p r).nodes := by
      intro n hn; simp [KDNode.nodes, hn]
    rw [nearestNeighborStrict_node_eq l r p t k hp ht, nearestNeighbor_node_eq l r p t k hp ht,
      ihl (k + 1) hlsm hllen hsplit.2.2.1, ihr (k + 1) hrsm hrlen hsplit.2.2.2, hresL, hresR]
    by_cases hcmp : coord t k < coord p k
    · rw [if_pos hcmp, if_pos hcmp]
      exact nearestNeighborRestStrict_eq_rest B l r p t k ht hB hts hsm hlen l r resL resR
        hlsub hLor hRor hrlen hrsm (hfar.1 hcmp)
    · rw [if_neg hcmp, if_neg hcmp]
      exact nearestNeighborRestStrict_eq_rest B l r p t k ht hB hts hsm hlen r l resR resL
        hrsub hRor hLor hllen hlsm (hfar.2 hcmp)

/-- The strict test on small coordinates: for every `D ≥ 1` and every bound `B` with
`D * (2 * B) ^ 2 < 2 ^ 53`, every sequence of points of length `D` added to an empty tree and
every target of length `D`, all with coordinates between `-B` and `B`, `nearestNeighbor`
returns a result and `nearestNeighbor` with the strict test returns the same one. -/
theorem strict_test_same_result_of_small (D : Nat) (hD : 1 ≤ D) (B : Int)
    (hB : (D : Int) * (2 * B) ^ 2 < 2 ^ 53) (d : Int) (ps : List (List Int))
    (hlen : ∀ p ∈ ps, p.length = D) (hsmall : ∀ p ∈ ps, SmallCoords B p)
    (target : List Int) (ht : target.length = D) (hts : SmallCoords B target) :
    ∃ t res, (KDTree.new d).addAll ps = some t ∧
      t.nearestNeighbor ⟨target⟩ = some res ∧
      nearestNeighborStrict t.root ⟨target⟩ 0 = some res := by
  have hne : ∀ p ∈ ps, p ≠ [] := fun p hp => ne_nil_of_length_eq hD (hlen p hp)
  obtain ⟨t, hall, -, hperm, -, hkeep⟩ :=
    KDTree.addAll_spec ps hne (KDTree.new d)
      (by intro x hx; simp [KDTree.new, KDNode.points] at hx)
  have hmem : ∀ x ∈ t.root.points, x ∈ ps := by
    intro x hx
    rcases List.mem_append.mp (hperm.mem_iff.mp hx) with h | h
    · exact h
    · simp [KDTree.new, KDNode.points] at h
  have hlen' : t.root.AllLength D := fun x hx => hlen x (hmem x hx)
  have hsm : t.root.AllSmall B := fun x hx => hsmall x (hmem x hx)
  have hsplit : t.root.Split 0 := hkeep (by simp [KDTree.new, KDNode.Split])
  have htne : target ≠ [] := ne_nil_of_length_eq hD ht
  obtain ⟨res, hres, -⟩ := nearestNeighbor_spec target htne t.root 0 (hlen'.allNonEmpty hD)
  refine ⟨t, res, hall, hres, ?_⟩
  rw [nearestNeighborStrict_eq B target htne (ht ▸ hB) hts t.root 0 hsm (ht ▸ hlen') hsplit]
  exact hres

/-- C16 at the points `(0)`, `(-3145728)` inserted in that order and the target
`(2146435072)`: at the root `radiusSquared` equals `dist * dist`, so the source visits the
left child; there the `int` subtraction of `distSquared` wraps and `(-3145728)` looks closer
than the root, so `nearestNeighbor` returns `(-3145728)`, while with the strict test the left
child is not visited and the root `(0)` is returned. -/
theorem strict_test_differs :
    (∀ p ∈ wrapPoints, p.length = 1) ∧
    (KDTree.new 1).addAll wrapPoints
      = some (KDTree.mk (.node (KDNode.new [-3145728]) [0] .nullptr) 1) ∧
    radiusSquared (.node (KDNode.new [-3145728]) [0] .nullptr) ⟨[2146435072]⟩ 0
      = some (2146435072 ^ 2) ∧
    distTimesDist 2146435072 0 = 2146435072 ^ 2 ∧
    distSquared ⟨[-3145728]⟩ ⟨[2146435072]⟩ = some (2145386496 ^ 2) ∧
    (KDTree.mk (.node (KDNode.new [-3145728]) [0] .nullptr) 1).nearestNeighbor ⟨[2146435072]⟩
      = some (KDNode.new [-3145728]) ∧
    nearestNeighborStrict (.node (KDNode.new [-3145728]) [0] .nullptr) ⟨[2146435072]⟩ 0
      = some (.node (KDNode.new [-3145728]) [0] .nullptr) := by
  decide

end EDAA
